import Mathlib

/-!
# todo-cli: the in-memory task model (`todo.go`) and its dispatcher (`command.go`)

A shallow embedding of the task collection of `todo.go`, of the status parser and
of `CmdFlags.Execute`, and the properties of their operations.

Modelling conventions.
* Go `int` is the 64-bit signed integer: ids are `Int` values and the one
  arithmetic operation on them (`highestID + 1` in `Add`) wraps around with
  `wrapInt64`.
* `TodoStatus` and `TodoPriority` are Go string types, so they are strings here.
* `*time.Time` / `*time.Duration` are `Option`s; nothing writes through these
  pointers, so the pointed-to value is all that matters.  `time.Now()` is a
  parameter `now` of the operations that read the clock.
* `Todos` is a slice owned by the caller: a `List Todo`.
* A method with receiver `*Todos` that returns `error` becomes a function that
  returns the error (`none` for `nil`) together with the collection it leaves
  behind.  `(T, error)` results of the read-only lookups are `Except`.
-/

namespace TodoCli

/-- Go `error` values of this program are created from a message. -/
abbrev Error := String

/-- The type `time.Time`, as an instant on some linear clock. -/
abbrev Time := Int

/-- The type `time.Duration` (an `int64` count of nanoseconds). -/
abbrev Duration := Int

abbrev TodoStatus := String

def StatusNotStarted : TodoStatus := "Not Started"
def StatusInProgress : TodoStatus := "In Progress"
def StatusCompleted : TodoStatus := "Completed"
def StatusRejected : TodoStatus := "Rejected"

abbrev TodoPriority := String

def PriorityHigh : TodoPriority := "High"
def PriorityMedium : TodoPriority := "Medium"
def PriorityLow : TodoPriority := "Low"

structure Todo where
  Id : Int
  Task : String
  Status : TodoStatus
  Priority : TodoPriority
  AssignedTo : String
  DueDate : Option Time
  EstimatedTime : Option Duration
  TimeSpent : Option Duration
  CompletedAt : Option Time
  DependsOn : List Int
deriving DecidableEq, Repr

abbrev Todos := List Todo

/-- Largest value of Go `int` on a 64-bit platform. -/
def maxInt64 : Int := 2 ^ 63 - 1

/-- Smallest value of Go `int` on a 64-bit platform. -/
def minInt64 : Int := -(2 ^ 63)

/-- Two's-complement wrap-around of a mathematical integer into `int64`. -/
def wrapInt64 (x : Int) : Int := (x + 2 ^ 63) % 2 ^ 64 - 2 ^ 63

/-- The message of `errors.New("task not found")`. -/
def errNotFound : Error := "task not found"

/-- `func (t *Todo) IsComplete() bool` -/
def Todo.IsComplete (t : Todo) : Bool :=
  t.Status == StatusCompleted

/-- The loop of `FindById`: the first element whose `Id` is `id`. -/
def FindById : Todos → Int → Except Error Todo
  | [], _ => .error errNotFound
  | t :: rest, id => if t.Id = id then .ok t else FindById rest id

/-- The loop of `FindIndexById`, entered at index `i`. -/
def FindIndexById.loop (id : Int) : List Todo → Nat → Except Error Nat
  | [], _ => .error errNotFound
  | t :: rest, i => if t.Id = id then .ok i else FindIndexById.loop id rest (i + 1)

/-- `func (todos Todos) FindIndexById(id int) (int, error)` -/
def FindIndexById (todos : Todos) (id : Int) : Except Error Nat :=
  FindIndexById.loop id todos 0

/-- The loop body of `CanStart` over the remaining dependency ids. -/
def Todo.CanStart.loop (todos : Todos) : List Int → Bool
  | [] => true
  | depID :: rest =>
    match FindById todos depID with
    | .error _ => false
    | .ok depTask => if !depTask.IsComplete then false else Todo.CanStart.loop todos rest

/-- `func (t *Todo) CanStart(todos Todos) bool` -/
def Todo.CanStart (t : Todo) (todos : Todos) : Bool :=
  if t.DependsOn.length = 0 then true
  else Todo.CanStart.loop todos t.DependsOn

/-- `func (t *Todo) MarkComplete()`, with the clock reading passed in. -/
def Todo.MarkComplete (t : Todo) (now : Time) : Todo :=
  { t with Status := StatusCompleted, CompletedAt := some now }

/-- The first loop of `Add`: the highest id, starting from `highestID`. -/
def Add.highestID : List Todo → Int → Int
  | [], highestID => highestID
  | t :: rest, highestID =>
    if t.Id > highestID then Add.highestID rest t.Id else Add.highestID rest highestID

/-- `func (todos *Todos) Add(title string, assignedTo string)` -/
def Add (todos : Todos) (title : String) (assignedTo : String) : Todos :=
  let highestID := Add.highestID todos 0
  let todo : Todo :=
    { Id := wrapInt64 (highestID + 1)
      Task := title
      Status := StatusNotStarted
      Priority := PriorityLow
      AssignedTo := assignedTo
      DueDate := none
      EstimatedTime := none
      TimeSpent := none
      CompletedAt := none
      DependsOn := [] }
  todos ++ [todo]

/-- `func (todos *Todos) Delete(id int) error` -/
def Delete (todos : Todos) (id : Int) : Option Error × Todos :=
  match FindIndexById todos id with
  | .error err => (some err, todos)
  | .ok index => (none, todos.eraseIdx index)

/-- The assignment `(*todos)[index] = f((*todos)[index])`; an index outside the
slice (a run-time panic in Go) is never produced by `FindIndexById`. -/
def updateAt (todos : Todos) (index : Nat) (f : Todo → Todo) : Todos :=
  match todos[index]? with
  | some t => todos.set index (f t)
  | none => todos

/-- `func (todos *Todos) EditTitle(id int, title string) error` -/
def EditTitle (todos : Todos) (id : Int) (title : String) : Option Error × Todos :=
  match FindIndexById todos id with
  | .error err => (some err, todos)
  | .ok index => (none, updateAt todos index (fun t => { t with Task := title }))

/-- The body of `UpdateStatus` on the element at `index`. -/
def UpdateStatus.onTask (status : TodoStatus) (now : Time) (t : Todo) : Todo :=
  let t :=
    if status = StatusCompleted then { t with CompletedAt := some now }
    else if t.Status = StatusCompleted then { t with CompletedAt := none }
    else t
  { t with Status := status }

/-- `func (todos *Todos) UpdateStatus(id int, status TodoStatus) error`, with the
clock reading passed in. -/
def UpdateStatus (todos : Todos) (id : Int) (status : TodoStatus) (now : Time) :
    Option Error × Todos :=
  match FindIndexById todos id with
  | .error err => (some err, todos)
  | .ok index => (none, updateAt todos index (UpdateStatus.onTask status now))

/-! ## Status parsing (`ParseStatus`, `cleanStatusEmoji`) and its library functions

This section takes a Go string that is valid UTF-8 as its sequence of Unicode code
points, a Lean string; the section "Status parsing on bytes" below has the same
functions on arbitrary bytes.  The functions of the Go standard library that the
program calls are written out from their documentation; the one table they use that
is not written out, the Unicode lower-case mapping above ASCII, is the parameter
`lowerCase`. -/

/-- `unicode.IsSpace`: the Latin-1 white space characters and, above Latin-1, the
characters of the `White_Space` property. -/
def isSpace (r : Char) : Bool :=
  let n := r.toNat
  if n ≤ 255 then
    n == 9 || n == 10 || n == 11 || n == 12 || n == 13 || n == 32 || n == 133 || n == 160
  else
    n == 5760 || (8192 ≤ n && n ≤ 8202) || n == 8232 || n == 8233 || n == 8239
      || n == 8287 || n == 12288

/-- `strings.TrimSpace`: the string without its leading and trailing white space. -/
def TrimSpace (s : String) : String :=
  ⟨((s.data.dropWhile isSpace).reverse.dropWhile isSpace).reverse⟩

/-- The scan of `strings.ReplaceAll` for a non-empty `old`: the leftmost occurrences
of `old`, not overlapping, are replaced by `new`; `skip` counts the characters of the
occurrence just replaced that are still to be passed over. -/
def ReplaceAll.scan (old new : List Char) : List Char → Nat → List Char
  | [], _ => []
  | _ :: rest, skip + 1 => ReplaceAll.scan old new rest skip
  | ch :: rest, 0 =>
    if old.isPrefixOf (ch :: rest) then new ++ ReplaceAll.scan old new rest (old.length - 1)
    else ch :: ReplaceAll.scan old new rest 0

/-- `strings.ReplaceAll(s, old, new)`; for an empty `old`, `new` is put before every
character and at the end. -/
def ReplaceAll (s old new : String) : String :=
  if old.data = [] then ⟨new.data ++ s.data.flatMap (fun ch => ch :: new.data)⟩
  else ⟨ReplaceAll.scan old.data new.data s.data 0⟩

/-- `unicode.ToLower`: the ASCII letters are mapped directly, every other character
through the Unicode case table `lowerCase`. -/
def toLowerRune (lowerCase : Char → Char) (r : Char) : Char :=
  if r.toNat ≤ 127 then
    if 65 ≤ r.toNat ∧ r.toNat ≤ 90 then Char.ofNat (r.toNat + 32) else r
  else lowerCase r

/-- `strings.ToLower` -/
def ToLower (lowerCase : Char → Char) (s : String) : String :=
  ⟨s.data.map (toLowerRune lowerCase)⟩

/-- The variable `statusEmojiMap`; a status that is no key yields the empty string. -/
def statusEmojiMap (status : TodoStatus) : String :=
  if status = StatusInProgress then "🚧"
  else if status = StatusNotStarted then "⏳"
  else if status = StatusCompleted then "✅"
  else if status = StatusRejected then "❌"
  else ""

/-- The status cell of a row of `Print`: `fmt.Sprintf("%s %s", statusEmoji, string(t.Status))`. -/
def Print.statusCell (status : TodoStatus) : String :=
  statusEmojiMap status ++ " " ++ status

/-- The slice `emojiPatterns` of `cleanStatusEmoji`. -/
def emojiPatterns : List String :=
  ["✅", "✓", "🟢", "🔄", "🚧", "🟡", "⏳", "❌", "🚫", "🔴", "⛔"]

/-- `func cleanStatusEmoji(status string) string` on a valid UTF-8 text
(`Bytes.cleanStatusEmoji` is the function on bytes). -/
def cleanStatusEmoji (status : String) : String :=
  let result := emojiPatterns.foldl (fun result emoji => ReplaceAll result emoji "") status
  TrimSpace result

/-- The message of `fmt.Errorf("invalid status: %s", status)`. -/
def errInvalidStatus (status : String) : Error := "invalid status: " ++ status

/-- `func ParseStatus(status string) (TodoStatus, error)` on a valid UTF-8 text
(`Bytes.ParseStatus` is the function on bytes). -/
def ParseStatus (lowerCase : Char → Char) (status : String) : Except Error TodoStatus :=
  let cleanStatus := cleanStatusEmoji status
  let normalized := ToLower lowerCase (TrimSpace cleanStatus)
  if normalized = "in progress" then .ok StatusInProgress
  else if normalized = "complete" ∨ normalized = "completed" ∨ normalized = "done" then
    .ok StatusCompleted
  else if normalized = "not started" ∨ normalized = "pending" ∨ normalized = "todo" then
    .ok StatusNotStarted
  else if normalized = "reject" ∨ normalized = "rejected" then .ok StatusRejected
  else .error (errInvalidStatus status)

/-! ## Status parsing on bytes

A Go string is a sequence of bytes, and the status text comes from the command
line, so it need not be valid UTF-8.  This section is `ParseStatus` on bytes, with
the library functions as Go defines them on byte strings: a byte that starts no
valid UTF-8 sequence is read as the code point U+FFFD of width 1.  On the bytes of
a valid UTF-8 text these functions compute what the functions above compute on the
text (`ParseStatus_utf8` below). -/

/-- A Go string: its bytes, each below 256. -/
abbrev Bytes := List Nat

/-- `utf8.EncodeRune`: the UTF-8 encoding of a code point. -/
def utf8Encode (r : Char) : Bytes :=
  let n := r.toNat
  if n < 128 then [n]
  else if n < 2048 then [192 + n / 64, 128 + n % 64]
  else if n < 65536 then [224 + n / 4096, 128 + n / 64 % 64, 128 + n % 64]
  else [240 + n / 262144, 128 + n / 4096 % 64, 128 + n / 64 % 64, 128 + n % 64]

/-- The bytes of a text. -/
def utf8 (s : String) : Bytes := s.data.flatMap utf8Encode

/-- `utf8.RuneError`, the code point U+FFFD. -/
def runeError : Char := Char.ofNat 65533

/-- A continuation byte `10xxxxxx`; `utf8.RuneStart` is its negation. -/
def isCont (b : Nat) : Bool := 128 ≤ b && b ≤ 191

/-- `utf8.DecodeRuneInString`: the code point at the front of the bytes and its
width; U+FFFD with width 1 when the front is no valid encoding (width 0 for no
bytes).  Over-long encodings, surrogates and values above U+10FFFF are not valid. -/
def decodeRune : Bytes → Char × Nat
  | [] => (runeError, 0)
  | b0 :: rest =>
    if b0 < 128 then (Char.ofNat b0, 1)
    else if 194 ≤ b0 ∧ b0 ≤ 223 then
      match rest with
      | b1 :: _ =>
        if isCont b1 then (Char.ofNat ((b0 - 192) * 64 + (b1 - 128)), 2) else (runeError, 1)
      | [] => (runeError, 1)
    else if 224 ≤ b0 ∧ b0 ≤ 239 then
      match rest with
      | b1 :: b2 :: _ =>
        if (if b0 = 224 then 160 else 128) ≤ b1 ∧ b1 ≤ (if b0 = 237 then 159 else 191)
            ∧ isCont b2 then
          (Char.ofNat ((b0 - 224) * 4096 + (b1 - 128) * 64 + (b2 - 128)), 3)
        else (runeError, 1)
      | _ => (runeError, 1)
    else if 240 ≤ b0 ∧ b0 ≤ 244 then
      match rest with
      | b1 :: b2 :: b3 :: _ =>
        if (if b0 = 240 then 144 else 128) ≤ b1 ∧ b1 ≤ (if b0 = 244 then 143 else 191)
            ∧ isCont b2 ∧ isCont b3 then
          (Char.ofNat ((b0 - 240) * 262144 + (b1 - 128) * 4096 + (b2 - 128) * 64 + (b3 - 128)),
            4)
        else (runeError, 1)
      | _ => (runeError, 1)
    else (runeError, 1)

/-- `utf8.DecodeLastRuneInString`: the code point at the end of the bytes and its
width.  From the last byte the function steps back over at most three bytes to the
nearest byte that starts a rune and decodes from there; the result counts only when
it reaches the end exactly, otherwise it is U+FFFD with width 1. -/
def decodeLastRune (s : Bytes) : Char × Nat :=
  match s.reverse with
  | [] => (runeError, 0)
  | last :: before =>
    if last < 128 then (Char.ofNat last, 1)
    else
      let back := ((before.take 3).takeWhile isCont).length
      if back < (before.take 3).length then
        let decoded := decodeRune ((last :: before).take (back + 2)).reverse
        if decoded.2 = back + 2 then decoded else (runeError, 1)
      else (runeError, 1)

/-- The runes of a byte string, as `for _, r := range s` yields them; `skip` counts
the bytes of the rune just read that are still to be passed over. -/
def Bytes.runes.scan : Bytes → Nat → List Char
  | [], _ => []
  | _ :: rest, skip + 1 => Bytes.runes.scan rest skip
  | b :: rest, 0 =>
    (decodeRune (b :: rest)).1 :: Bytes.runes.scan rest ((decodeRune (b :: rest)).2 - 1)

/-- The runes of a byte string. -/
def Bytes.runes (s : Bytes) : List Char := Bytes.runes.scan s 0

/-- `strings.ToLower` on bytes: every rune of the string, mapped by `unicode.ToLower`
and encoded. -/
def Bytes.ToLower (lowerCase : Char → Char) (s : Bytes) : Bytes :=
  ((Bytes.runes s).map (toLowerRune lowerCase)).flatMap utf8Encode

/-- `strings.TrimLeftFunc(s, unicode.IsSpace)`: the bytes from the first rune that is
no white space. -/
def Bytes.TrimLeft.scan : Bytes → Nat → Bytes
  | [], _ => []
  | _ :: rest, skip + 1 => Bytes.TrimLeft.scan rest skip
  | b :: rest, 0 =>
    if isSpace (decodeRune (b :: rest)).1 then
      Bytes.TrimLeft.scan rest ((decodeRune (b :: rest)).2 - 1)
    else b :: rest

/-- `strings.TrimRightFunc(s, unicode.IsSpace)` on the reversed bytes: the bytes up to
the last rune that is no white space, reversed. -/
def Bytes.TrimRight.scan : Bytes → Nat → Bytes
  | [], _ => []
  | _ :: rest, skip + 1 => Bytes.TrimRight.scan rest skip
  | b :: rest, 0 =>
    if isSpace (decodeLastRune (b :: rest).reverse).1 then
      Bytes.TrimRight.scan rest ((decodeLastRune (b :: rest).reverse).2 - 1)
    else b :: rest

/-- `strings.TrimSpace` on bytes: white space runes are cut off on the left, then on
the right (the function's fast path for ASCII computes the same). -/
def Bytes.TrimSpace (s : Bytes) : Bytes :=
  (Bytes.TrimRight.scan (Bytes.TrimLeft.scan s 0).reverse 0).reverse

/-- The scan of `strings.ReplaceAll(s, old, "")` for a non-empty `old`: the leftmost
occurrences of `old`, not overlapping, are left out. -/
def Bytes.ReplaceAll.scan (old : Bytes) : Bytes → Nat → Bytes
  | [], _ => []
  | _ :: rest, skip + 1 => Bytes.ReplaceAll.scan old rest skip
  | b :: rest, 0 =>
    if old.isPrefixOf (b :: rest) then Bytes.ReplaceAll.scan old rest (old.length - 1)
    else b :: Bytes.ReplaceAll.scan old rest 0

/-- `strings.ReplaceAll(s, old, "")` on bytes; an empty `old` leaves `s` as it is. -/
def Bytes.ReplaceAll (s old : Bytes) : Bytes :=
  if old = [] then s else Bytes.ReplaceAll.scan old s 0

/-- `func cleanStatusEmoji(status string) string` on bytes. -/
def Bytes.cleanStatusEmoji (status : Bytes) : Bytes :=
  let result :=
    (emojiPatterns.map utf8).foldl (fun result emoji => Bytes.ReplaceAll result emoji) status
  Bytes.TrimSpace result

/-- `func ParseStatus(status string) (TodoStatus, error)` on bytes; the error is the
bytes of its message. -/
def Bytes.ParseStatus (lowerCase : Char → Char) (status : Bytes) : Except Bytes TodoStatus :=
  let cleanStatus := Bytes.cleanStatusEmoji status
  let normalized := Bytes.ToLower lowerCase (Bytes.TrimSpace cleanStatus)
  if normalized = utf8 "in progress" then .ok StatusInProgress
  else if normalized = utf8 "complete" ∨ normalized = utf8 "completed"
      ∨ normalized = utf8 "done" then
    .ok StatusCompleted
  else if normalized = utf8 "not started" ∨ normalized = utf8 "pending"
      ∨ normalized = utf8 "todo" then
    .ok StatusNotStarted
  else if normalized = utf8 "reject" ∨ normalized = utf8 "rejected" then .ok StatusRejected
  else .error (utf8 "invalid status: " ++ status)

/-! ## The command dispatcher (`command.go`) -/

/-- `strconv.Atoi` on a 64-bit platform: an optional sign and then decimal digits, at
least one, denoting a value of `int`; anything else is an error.  `Execute` only
tests the error against `nil`, so the error is `none` here. -/
def Atoi (s : String) : Option Int :=
  let digits :=
    match s.data with
    | [] => []
    | ch :: rest => if ch.toNat = 45 ∨ ch.toNat = 43 then rest else ch :: rest
  let neg := s.data.head?.map Char.toNat = some 45
  if digits = [] then none
  else if digits.all (fun ch => 48 ≤ ch.toNat && ch.toNat ≤ 57) then
    let un : Nat := digits.foldl (fun n ch => n * 10 + (ch.toNat - 48)) 0
    let n : Int := if neg then -(un : Int) else (un : Int)
    if minInt64 ≤ n ∧ n ≤ maxInt64 then some n else none
  else none

/-- `strings.SplitN(s, ":", 2)`: the text before and the text after the first colon,
or `s` alone when it has no colon. -/
def SplitN (s : String) : List String :=
  match s.data.span (fun ch => ch.toNat ≠ 58) with
  | (_, []) => [s]
  | (before, _ :: after) => [⟨before⟩, ⟨after⟩]

structure CmdFlags where
  Add : String
  Del : Int
  Edit : String
  UpdateStatus : String
  List : Bool
deriving DecidableEq, Repr

/-- What a run writes to standard output: a line of `fmt.Println`, or the table that
`Print` renders for a collection. -/
inductive Output where
  | line (text : String)
  | table (todos : Todos)
deriving DecidableEq, Repr

/-- The outcome of `Execute`: the collection it leaves behind, what it wrote, and
the status of `os.Exit` when it ended the process (`none` when it returned). -/
structure Outcome where
  todos : Todos
  stdout : List Output
  exit : Option Int
deriving DecidableEq, Repr

/-- `func (cf *CmdFlags) Execute(todos *Todos)`, with the case table of
`strings.ToLower` and the clock reading passed in. -/
def CmdFlags.Execute (cf : CmdFlags) (lowerCase : Char → Char) (now : Time)
    (todos : Todos) : Outcome :=
  if cf.List then
    { todos := todos, stdout := [.table todos], exit := none }
  else if cf.Add ≠ "" then
    { todos := TodoCli.Add todos cf.Add "", stdout := [], exit := none }
  else if cf.Edit ≠ "" then
    match SplitN cf.Edit with
    | [part0, part1] =>
      match Atoi part0 with
      | none =>
        { todos := todos, stdout := [.line "Error: invalid id for edit"], exit := some 1 }
      | some id => { todos := (EditTitle todos id part1).2, stdout := [], exit := none }
    | _ =>
      { todos := todos
        stdout := [.line "Error, invalid format for edit. Please use id:new_title"]
        exit := some 1 }
  else if cf.UpdateStatus ≠ "" then
    match SplitN cf.UpdateStatus with
    | [part0, part1] =>
      match Atoi part0 with
      | none =>
        { todos := todos, stdout := [.line "Error: invalid id for updateStatus"],
          exit := some 1 }
      | some id =>
        match ParseStatus lowerCase part1 with
        | .error _ =>
          { todos := todos, stdout := [.line "Error: invalid status for updateStatus"],
            exit := some 1 }
        | .ok parsedStatus =>
          { todos := (TodoCli.UpdateStatus todos id parsedStatus now).2, stdout := [],
            exit := none }
    | _ =>
      { todos := todos
        stdout := [.line "Error, invalid format for status update. Please use id:new_status"]
        exit := some 1 }
  else if cf.Del ≠ -1 then
    { todos := (Delete todos cf.Del).2, stdout := [], exit := none }
  else
    { todos := todos, stdout := [.line "Invalid statement"], exit := none }

/-! ## Properties of collections and sequences of operations -/

/-- Every id is a value of Go `int`. -/
abbrev IdsFitInt (c : Todos) : Prop := ∀ t ∈ c, minInt64 ≤ t.Id ∧ t.Id ≤ maxInt64

/-- The ids of the collection are pairwise distinct. -/
abbrev UniqueIds (c : Todos) : Prop := (c.map Todo.Id).Nodup

/-- Every id of the collection is positive. -/
abbrev PositiveIds (c : Todos) : Prop := ∀ t ∈ c, 0 < t.Id

/-- A run of `Add` calls, each given by its title and assignee. -/
def addAll (c : Todos) (calls : List (String × String)) : Todos :=
  calls.foldl (fun c call => Add c call.1 call.2) c

/-- The completion invariant: `CompletedAt` is set exactly on the completed tasks. -/
abbrev CompletionInv (c : Todos) : Prop :=
  ∀ t ∈ c, (t.CompletedAt ≠ none ↔ t.Status = StatusCompleted)

/-- The collections that the operations build from the empty one; `markComplete` is
`MarkComplete` called on the element at some index. -/
inductive Reachable : Todos → Prop where
  | empty : Reachable []
  | add (c : Todos) (title assignedTo : String) :
      Reachable c → Reachable (Add c title assignedTo)
  | delete (c : Todos) (id : Int) : Reachable c → Reachable (Delete c id).2
  | editTitle (c : Todos) (id : Int) (title : String) :
      Reachable c → Reachable (EditTitle c id title).2
  | updateStatus (c : Todos) (id : Int) (status : TodoStatus) (now : Time) :
      Reachable c → Reachable (UpdateStatus c id status now).2
  | markComplete (c : Todos) (index : Nat) (now : Time) :
      Reachable c → Reachable (updateAt c index (fun t => t.MarkComplete now))

/-- The specification's reading of the emoji set: the glyphs of `emojiPatterns`. -/
def emojiGlyphs : List Char := emojiPatterns.flatMap String.data

/-- The specification's "every glyph of the fixed emoji set removed". -/
def removeEmoji (s : String) : String :=
  ⟨s.data.filter (fun ch => !emojiGlyphs.contains ch)⟩

/-- The specification's normal form of a status text: emoji glyphs removed, then
surrounding white space trimmed, then lower-cased. -/
def normalizeStatus (lowerCase : Char → Char) (s : String) : String :=
  ToLower lowerCase (TrimSpace (removeEmoji s))

/-- The specification's white space: the code points of the Unicode property
`White_Space`. -/
def isWhiteSpace (ch : Char) : Bool :=
  [9, 10, 11, 12, 13, 32, 133, 160, 5760, 8192, 8193, 8194, 8195, 8196, 8197, 8198, 8199,
    8200, 8201, 8202, 8232, 8233, 8239, 8287, 12288].contains ch.toNat

/-- The specification's "surrounding whitespace trimmed". -/
def trimWhiteSpace (l : List Char) : List Char :=
  ((l.dropWhile isWhiteSpace).reverse.dropWhile isWhiteSpace).reverse

/-- The specification's lower-casing of a character: the ASCII capitals go to their
small letters, the other ASCII characters stay, and a character above ASCII goes to
its Unicode lower case `lowerCase`. -/
def lowerChar (lowerCase : Char → Char) (ch : Char) : Char :=
  if ch.toNat < 128 then ch.toLower else lowerCase ch

/-- The specification's normal form of a status text, written out on its own: every
glyph of the emoji set removed, then surrounding white space trimmed, then every
character lower-cased. -/
def statusNormalForm (lowerCase : Char → Char) (s : String) : String :=
  ⟨(trimWhiteSpace (s.data.filter (fun ch => !emojiGlyphs.contains ch))).map
    (lowerChar lowerCase)⟩

/-- The bytes of a list of code points. -/
def utf8L (l : List Char) : Bytes := l.flatMap utf8Encode

/-- The specification's "every glyph of the fixed emoji set removed", read on bytes
in one pass from the left: wherever the bytes of a glyph of the set begin, they are
left out. -/
def Bytes.removeGlyphs.scan : Bytes → Nat → Bytes
  | [], _ => []
  | _ :: rest, skip + 1 => Bytes.removeGlyphs.scan rest skip
  | b :: rest, 0 =>
    match (emojiPatterns.map utf8).find? (fun glyph => glyph.isPrefixOf (b :: rest)) with
    | some glyph => Bytes.removeGlyphs.scan rest (glyph.length - 1)
    | none => b :: Bytes.removeGlyphs.scan rest 0

/-- The bytes without the glyphs of the emoji set that occur in them. -/
def Bytes.removeGlyphs (s : Bytes) : Bytes := Bytes.removeGlyphs.scan s 0

/-- One call of a mutating operation of the collection. -/
inductive Step where
  | add (title assignedTo : String)
  | delete (id : Int)
  | editTitle (id : Int) (title : String)
  | updateStatus (id : Int) (status : TodoStatus) (now : Time)
deriving DecidableEq, Repr

/-- The collection a call leaves behind. -/
def Step.apply (c : Todos) : Step → Todos
  | .add title assignedTo => Add c title assignedTo
  | .delete id => (Delete c id).2
  | .editTitle id title => (EditTitle c id title).2
  | .updateStatus id status now => (UpdateStatus c id status now).2

/-- The collection a sequence of calls leaves behind. -/
def runSteps (c : Todos) (steps : List Step) : Todos :=
  steps.foldl Step.apply c

/-- A call that neither deletes the task with id `tid` nor sets its status to
Completed. -/
def Step.spares (tid : Int) : Step → Bool
  | .add _ _ => true
  | .delete id => id != tid
  | .editTitle _ _ => true
  | .updateStatus id status _ => id != tid || status != StatusCompleted

/-! ## Sample data -/

/-- A task with the given id, status, completion time and dependencies. -/
def mkTodo (id : Int) (status : TodoStatus) (completedAt : Option Time)
    (dependsOn : List Int) : Todo :=
  { Id := id, Task := "t", Status := status, Priority := PriorityLow, AssignedTo := "",
    DueDate := none, EstimatedTime := none, TimeSpent := none,
    CompletedAt := completedAt, DependsOn := dependsOn }

/-- Two tasks, with ids 1 and 4; the first is completed, the second depends on it. -/
def sampleTodos : Todos :=
  [mkTodo 1 StatusCompleted (some 7) [], mkTodo 4 StatusNotStarted none [1]]

/-- The task `Add` builds, for a given id. -/
def freshTodo (id : Int) (title assignedTo : String) : Todo :=
  { Id := id, Task := title, Status := StatusNotStarted, Priority := PriorityLow,
    AssignedTo := assignedTo, DueDate := none, EstimatedTime := none, TimeSpent := none,
    CompletedAt := none, DependsOn := [] }

/-! ## The highest id computed by `Add` -/

theorem highestID_le_iff (c : List Todo) (h b : Int) :
    Add.highestID c h ≤ b ↔ h ≤ b ∧ ∀ t ∈ c, t.Id ≤ b := by
  induction c generalizing h with
  | nil => simp [Add.highestID]
  | cons t rest ih =>
    unfold Add.highestID
    split_ifs with hgt
    · rw [ih, List.forall_mem_cons]
      constructor
      · rintro ⟨h1, h2⟩; exact ⟨by omega, h1, h2⟩
      · rintro ⟨_, h1, h2⟩; exact ⟨h1, h2⟩
    · rw [ih, List.forall_mem_cons]
      constructor
      · rintro ⟨h1, h2⟩; exact ⟨h1, by omega, h2⟩
      · rintro ⟨h1, _, h2⟩; exact ⟨h1, h2⟩

theorem highestID_attained (c : List Todo) (h : Int) :
    Add.highestID c h = h ∨ ∃ t ∈ c, t.Id = Add.highestID c h := by
  induction c generalizing h with
  | nil => left; rfl
  | cons t rest ih =>
    unfold Add.highestID
    split_ifs with hgt
    · rcases ih t.Id with h1 | ⟨u, hu, h1⟩
      · right; exact ⟨t, List.mem_cons_self _ _, h1.symm⟩
      · right; exact ⟨u, List.mem_cons_of_mem _ hu, h1⟩
    · rcases ih h with h1 | ⟨u, hu, h1⟩
      · left; exact h1
      · right; exact ⟨u, List.mem_cons_of_mem _ hu, h1⟩

theorem start_le_highestID (c : List Todo) (h : Int) : h ≤ Add.highestID c h :=
  ((highestID_le_iff c h _).1 le_rfl).1

theorem id_le_highestID (c : List Todo) (h : Int) : ∀ t ∈ c, t.Id ≤ Add.highestID c h :=
  ((highestID_le_iff c h _).1 le_rfl).2

theorem wrapInt64_eq_self (x : Int) (hlo : minInt64 ≤ x) (hhi : x ≤ maxInt64) :
    wrapInt64 x = x := by
  unfold wrapInt64
  unfold minInt64 at hlo
  unfold maxInt64 at hhi
  rw [Int.emod_eq_of_lt (by omega) (by omega)]
  omega

theorem highestID_lt_max (c : List Todo) (hbound : ∀ t ∈ c, t.Id < maxInt64) :
    Add.highestID c 0 < maxInt64 := by
  rcases highestID_attained c 0 with h | ⟨t, ht, h⟩
  · rw [h]; decide
  · rw [← h]; exact hbound t ht

theorem Add_eq (c : Todos) (title assignedTo : String) :
    Add c title assignedTo
      = c ++ [freshTodo (wrapInt64 (Add.highestID c 0 + 1)) title assignedTo] := rfl

/-! ## C1 -/

/-- C1, counterexample: in a collection whose highest id is the largest Go `int`,
`Add` appends a task whose id is the smallest Go `int`, not the maximum plus one. -/
theorem Add_id_overflow_counterexample :
    Add [mkTodo maxInt64 StatusNotStarted none []] "a" "b"
        = [mkTodo maxInt64 StatusNotStarted none [], freshTodo minInt64 "a" "b"]
      ∧ minInt64 ≠ maxInt64 + 1 := by
  decide

/-- C1, amended: when every id of `c` is below the largest Go `int`, `Add` yields
exactly `c` followed by one new task whose id is `m + 1`, where `m` is the maximum
id of `c` taken as at least 0 (0 for the empty collection); the new task carries the
given title and assignee, status NotStarted, priority Low, no dates or durations
and no dependencies. -/
theorem Add_appends_fresh_task (c : Todos) (title assignedTo : String)
    (hbound : ∀ t ∈ c, t.Id < maxInt64) :
    ∃ m : Int, 0 ≤ m ∧ (∀ t ∈ c, t.Id ≤ m) ∧ (m = 0 ∨ ∃ t ∈ c, t.Id = m) ∧
      Add c title assignedTo =
        c ++ [{ Id := m + 1, Task := title, Status := StatusNotStarted,
                Priority := PriorityLow, AssignedTo := assignedTo, DueDate := none,
                EstimatedTime := none, TimeSpent := none, CompletedAt := none,
                DependsOn := [] }] := by
  refine ⟨Add.highestID c 0, start_le_highestID c 0, id_le_highestID c 0,
    highestID_attained c 0, ?_⟩
  have hlt := highestID_lt_max c hbound
  have hge := start_le_highestID c 0
  rw [Add_eq, wrapInt64_eq_self _ (by unfold minInt64; omega) (by omega)]
  rfl

/-- C1, witness: a two-task collection with ids 1 and 4. -/
theorem Add_appends_fresh_task_witness :
    (∀ t ∈ [mkTodo 1 StatusCompleted (some 7) [], mkTodo 4 StatusNotStarted none [1]],
        t.Id < maxInt64) ∧
    ∃ m : Int, 0 ≤ m ∧
      (∀ t ∈ [mkTodo 1 StatusCompleted (some 7) [], mkTodo 4 StatusNotStarted none [1]],
        t.Id ≤ m) ∧
      (m = 0 ∨ ∃ t ∈ [mkTodo 1 StatusCompleted (some 7) [],
        mkTodo 4 StatusNotStarted none [1]], t.Id = m) ∧
      Add [mkTodo 1 StatusCompleted (some 7) [], mkTodo 4 StatusNotStarted none [1]]
          "Write spec" "ann" =
        [mkTodo 1 StatusCompleted (some 7) [], mkTodo 4 StatusNotStarted none [1]] ++
          [{ Id := m + 1, Task := "Write spec", Status := StatusNotStarted,
             Priority := PriorityLow, AssignedTo := "ann", DueDate := none,
             EstimatedTime := none, TimeSpent := none, CompletedAt := none,
             DependsOn := [] }] :=
  ⟨by decide, Add_appends_fresh_task _ _ _ (by decide)⟩

/-! ## Lookup by id -/

theorem findIndex_loop_absent (id : Int) (c : List Todo) (i : Nat)
    (h : ∀ t ∈ c, t.Id ≠ id) : FindIndexById.loop id c i = .error errNotFound := by
  induction c generalizing i with
  | nil => rfl
  | cons t rest ih =>
    rw [List.forall_mem_cons] at h
    simp only [FindIndexById.loop, if_neg h.1]
    exact ih _ h.2

theorem findIndex_loop_first (id : Int) (pre : List Todo) (t : Todo) (post : List Todo)
    (i : Nat) (hpre : ∀ x ∈ pre, x.Id ≠ id) (ht : t.Id = id) :
    FindIndexById.loop id (pre ++ t :: post) i = .ok (i + pre.length) := by
  induction pre generalizing i with
  | nil => simp [FindIndexById.loop, ht]
  | cons x rest ih =>
    rw [List.forall_mem_cons] at hpre
    have hstep : FindIndexById.loop id (x :: rest ++ t :: post) i
        = FindIndexById.loop id (rest ++ t :: post) (i + 1) := by
      show FindIndexById.loop id (x :: (rest ++ t :: post)) i = _
      simp only [FindIndexById.loop, if_neg hpre.1]
    rw [hstep, ih _ hpre.2, List.length_cons]
    congr 1
    omega

theorem FindIndexById_absent (c : Todos) (id : Int) (h : ∀ t ∈ c, t.Id ≠ id) :
    FindIndexById c id = .error errNotFound :=
  findIndex_loop_absent id c 0 h

theorem FindIndexById_first (id : Int) (pre : List Todo) (t : Todo) (post : List Todo)
    (hpre : ∀ x ∈ pre, x.Id ≠ id) (ht : t.Id = id) :
    FindIndexById (pre ++ t :: post) id = .ok pre.length := by
  unfold FindIndexById
  rw [findIndex_loop_first id pre t post 0 hpre ht, Nat.zero_add]

theorem FindById_absent (c : Todos) (id : Int) (h : ∀ t ∈ c, t.Id ≠ id) :
    FindById c id = .error errNotFound := by
  induction c with
  | nil => rfl
  | cons t rest ih =>
    rw [List.forall_mem_cons] at h
    simp only [FindById, if_neg h.1]
    exact ih h.2

theorem FindById_first (id : Int) (pre : List Todo) (t : Todo) (post : List Todo)
    (hpre : ∀ x ∈ pre, x.Id ≠ id) (ht : t.Id = id) :
    FindById (pre ++ t :: post) id = .ok t := by
  induction pre with
  | nil => simp [FindById, ht]
  | cons x rest ih =>
    rw [List.forall_mem_cons] at hpre
    have hstep : FindById (x :: rest ++ t :: post) id = FindById (rest ++ t :: post) id := by
      show FindById (x :: (rest ++ t :: post)) id = _
      simp only [FindById, if_neg hpre.1]
    rw [hstep]
    exact ih hpre.2

/-- A collection that holds the id splits at the first task carrying it. -/
theorem exists_first_split (c : Todos) (id : Int) (h : ∃ t ∈ c, t.Id = id) :
    ∃ pre t post, c = pre ++ t :: post ∧ t.Id = id ∧ ∀ x ∈ pre, x.Id ≠ id := by
  induction c with
  | nil => simp at h
  | cons a rest ih =>
    by_cases ha : a.Id = id
    · exact ⟨[], a, rest, rfl, ha, by simp⟩
    · obtain ⟨t, ht, hid⟩ := h
      rcases List.mem_cons.1 ht with rfl | hmem
      · exact absurd hid ha
      · obtain ⟨pre, u, post, hc, hu, hpre⟩ := ih ⟨t, hmem, hid⟩
        refine ⟨a :: pre, u, post, by rw [hc]; rfl, hu, ?_⟩
        intro x hx
        rcases List.mem_cons.1 hx with rfl | hx
        · exact ha
        · exact hpre x hx

theorem eraseIdx_split (pre : List Todo) (t : Todo) (post : List Todo) :
    (pre ++ t :: post).eraseIdx pre.length = pre ++ post := by
  induction pre with
  | nil => rfl
  | cons x rest ih => simp only [List.cons_append, List.length_cons, List.eraseIdx_cons_succ, ih]

theorem updateAt_split (pre : List Todo) (t : Todo) (post : List Todo) (f : Todo → Todo) :
    updateAt (pre ++ t :: post) pre.length f = pre ++ f t :: post := by
  induction pre with
  | nil => simp [updateAt]
  | cons x rest ih =>
    unfold updateAt at ih ⊢
    simp only [List.cons_append, List.length_cons, List.getElem?_cons_succ, List.set_cons_succ]
    cases hget : (rest ++ t :: post)[rest.length]? with
    | none => simp at hget
    | some u =>
      rw [hget] at ih
      simp only at ih ⊢
      rw [ih]

/-! ## The mutating operations at a present and at an absent id -/

theorem Delete_absent (c : Todos) (id : Int) (h : ∀ t ∈ c, t.Id ≠ id) :
    Delete c id = (some errNotFound, c) := by
  simp only [Delete, FindIndexById_absent c id h]

theorem EditTitle_absent (c : Todos) (id : Int) (title : String) (h : ∀ t ∈ c, t.Id ≠ id) :
    EditTitle c id title = (some errNotFound, c) := by
  simp only [EditTitle, FindIndexById_absent c id h]

theorem UpdateStatus_absent (c : Todos) (id : Int) (s : TodoStatus) (now : Time)
    (h : ∀ t ∈ c, t.Id ≠ id) : UpdateStatus c id s now = (some errNotFound, c) := by
  simp only [UpdateStatus, FindIndexById_absent c id h]

theorem Delete_first (id : Int) (pre : List Todo) (t : Todo) (post : List Todo)
    (hpre : ∀ x ∈ pre, x.Id ≠ id) (ht : t.Id = id) :
    Delete (pre ++ t :: post) id = (none, pre ++ post) := by
  simp only [Delete, FindIndexById_first id pre t post hpre ht, eraseIdx_split]

theorem EditTitle_first (id : Int) (title : String) (pre : List Todo) (t : Todo)
    (post : List Todo) (hpre : ∀ x ∈ pre, x.Id ≠ id) (ht : t.Id = id) :
    EditTitle (pre ++ t :: post) id title = (none, pre ++ { t with Task := title } :: post) := by
  simp only [EditTitle, FindIndexById_first id pre t post hpre ht, updateAt_split]

theorem UpdateStatus_first (id : Int) (s : TodoStatus) (now : Time) (pre : List Todo)
    (t : Todo) (post : List Todo) (hpre : ∀ x ∈ pre, x.Id ≠ id) (ht : t.Id = id) :
    UpdateStatus (pre ++ t :: post) id s now
      = (none, pre ++ UpdateStatus.onTask s now t :: post) := by
  simp only [UpdateStatus, FindIndexById_first id pre t post hpre ht, updateAt_split]

/-- Either no task carries the id, or the collection splits at the first one. -/
theorem absent_or_split (c : Todos) (id : Int) :
    (∀ t ∈ c, t.Id ≠ id) ∨
      ∃ pre t post, c = pre ++ t :: post ∧ t.Id = id ∧ ∀ x ∈ pre, x.Id ≠ id := by
  by_cases h : ∃ t ∈ c, t.Id = id
  · exact Or.inr (exists_first_split c id h)
  · left
    intro t ht hid
    exact h ⟨t, ht, hid⟩

/-! ## Ids under the operations -/

theorem highestID_append (c d : List Todo) (h : Int) :
    Add.highestID (c ++ d) h = Add.highestID d (Add.highestID c h) := by
  induction c generalizing h with
  | nil => rfl
  | cons t rest ih =>
    by_cases hgt : t.Id > h
    · have h1 : Add.highestID (t :: rest ++ d) h = Add.highestID (rest ++ d) t.Id := by
        show Add.highestID (t :: (rest ++ d)) h = _
        rw [Add.highestID, if_pos hgt]
      have h2 : Add.highestID (t :: rest) h = Add.highestID rest t.Id := by
        rw [Add.highestID, if_pos hgt]
      rw [h1, h2, ih]
    · have h1 : Add.highestID (t :: rest ++ d) h = Add.highestID (rest ++ d) h := by
        show Add.highestID (t :: (rest ++ d)) h = _
        rw [Add.highestID, if_neg hgt]
      have h2 : Add.highestID (t :: rest) h = Add.highestID rest h := by
        rw [Add.highestID, if_neg hgt]
      rw [h1, h2, ih]

theorem wrapInt64_overflow : wrapInt64 (maxInt64 + 1) = minInt64 := by decide

theorem Delete_subset (c : Todos) (id : Int) : ∀ t ∈ (Delete c id).2, t ∈ c := by
  rcases absent_or_split c id with h | ⟨pre, u, post, rfl, hu, hpre⟩
  · rw [Delete_absent c id h]; exact fun t ht => ht
  · rw [Delete_first id pre u post hpre hu]
    intro t ht
    simp only [List.mem_append, List.mem_cons] at ht ⊢
    tauto

theorem Delete_sublist (c : Todos) (id : Int) : List.Sublist (Delete c id).2 c := by
  rcases absent_or_split c id with h | ⟨pre, u, post, rfl, hu, hpre⟩
  · rw [Delete_absent c id h]
  · rw [Delete_first id pre u post hpre hu]
    exact List.Sublist.append_left (List.sublist_cons_self u post) pre

theorem EditTitle_ids (c : Todos) (id : Int) (title : String) :
    (EditTitle c id title).2.map Todo.Id = c.map Todo.Id := by
  rcases absent_or_split c id with h | ⟨pre, u, post, rfl, hu, hpre⟩
  · rw [EditTitle_absent c id title h]
  · rw [EditTitle_first id title pre u post hpre hu]
    simp

theorem UpdateStatus_onTask_Id (s : TodoStatus) (now : Time) (t : Todo) :
    (UpdateStatus.onTask s now t).Id = t.Id := by
  unfold UpdateStatus.onTask
  split_ifs <;> rfl

theorem UpdateStatus_ids (c : Todos) (id : Int) (s : TodoStatus) (now : Time) :
    (UpdateStatus c id s now).2.map Todo.Id = c.map Todo.Id := by
  rcases absent_or_split c id with h | ⟨pre, u, post, rfl, hu, hpre⟩
  · rw [UpdateStatus_absent c id s now h]
  · rw [UpdateStatus_first id s now pre u post hpre hu]
    simp [UpdateStatus_onTask_Id]

theorem positive_of_ids_eq (c d : Todos) (h : d.map Todo.Id = c.map Todo.Id)
    (hc : PositiveIds c) : PositiveIds d := by
  intro t ht
  have hmem : t.Id ∈ c.map Todo.Id := h ▸ List.mem_map_of_mem Todo.Id ht
  obtain ⟨u, hu, hid⟩ := List.mem_map.1 hmem
  rw [← hid]
  exact hc u hu

theorem Add_unique (c : Todos) (title assignedTo : String) (hfit : IdsFitInt c)
    (huniq : UniqueIds c) (hpos : PositiveIds c) : UniqueIds (Add c title assignedTo) := by
  unfold UniqueIds
  rw [Add_eq, List.map_append, List.nodup_append]
  refine ⟨huniq, List.nodup_singleton _, ?_⟩
  intro newId hmem hnew
  rw [List.map_singleton, List.mem_singleton] at hnew
  subst hnew
  obtain ⟨u, hu, hid⟩ := List.mem_map.1 hmem
  have hle := id_le_highestID c 0 u hu
  have hge := start_le_highestID c 0
  have hmax : Add.highestID c 0 ≤ maxInt64 :=
    (highestID_le_iff c 0 maxInt64).2 ⟨by decide, fun t ht => (hfit t ht).2⟩
  have hupos := hpos u hu
  change u.Id = wrapInt64 (Add.highestID c 0 + 1) at hid
  by_cases hlt : Add.highestID c 0 < maxInt64
  · rw [wrapInt64_eq_self _ (by unfold minInt64; omega) (by omega)] at hid
    omega
  · have heq : Add.highestID c 0 = maxInt64 := by omega
    rw [heq, wrapInt64_overflow] at hid
    unfold minInt64 at hid
    omega

theorem Add_positive (c : Todos) (title assignedTo : String) (hpos : PositiveIds c)
    (hbound : ∀ t ∈ c, t.Id < maxInt64) : PositiveIds (Add c title assignedTo) := by
  intro t ht
  rw [Add_eq, List.mem_append, List.mem_singleton] at ht
  rcases ht with ht | rfl
  · exact hpos t ht
  · have hlt := highestID_lt_max c hbound
    have hge := start_le_highestID c 0
    change 0 < wrapInt64 (Add.highestID c 0 + 1)
    rw [wrapInt64_eq_self _ (by unfold minInt64; omega) (by omega)]
    omega

theorem addAll_snoc (c : Todos) (calls : List (String × String)) (call : String × String) :
    addAll c (calls ++ [call]) = Add (addAll c calls) call.1 call.2 := by
  simp [addAll, List.foldl_append]

/-- After `n` calls of `Add` on the empty collection the ids are `1, …, n`. -/
theorem addAll_empty_ids (calls : List (String × String))
    (hlen : (calls.length : Int) ≤ maxInt64) :
    Add.highestID (addAll [] calls) 0 = calls.length ∧
      (addAll [] calls).map Todo.Id = (List.range calls.length).map (fun (i : Nat) => (i : Int) + 1) := by
  induction calls using List.reverseRecOn with
  | nil => exact ⟨rfl, rfl⟩
  | append_singleton pre call ih =>
    rw [List.length_append, List.length_singleton] at hlen ⊢
    push_cast at hlen ⊢
    obtain ⟨hhigh, hids⟩ := ih (by omega)
    have hw : wrapInt64 ((pre.length : Int) + 1) = (pre.length : Int) + 1 :=
      wrapInt64_eq_self _ (by unfold minInt64; omega) hlen
    rw [addAll_snoc, Add_eq, hhigh, hw]
    constructor
    · rw [highestID_append, hhigh]
      simp [Add.highestID, freshTodo]
    · rw [List.map_append, hids, List.range_succ, List.map_append]
      rfl

theorem addAll_length (c : Todos) (calls : List (String × String)) :
    (addAll c calls).length = c.length + calls.length := by
  induction calls using List.reverseRecOn with
  | nil => rfl
  | append_singleton pre call ih =>
    rw [addAll_snoc, Add_eq, List.length_append, ih, List.length_append]
    simp only [List.length_singleton]
    omega

/-! ## C2 -/

/-- C2, counterexample: the ids of the one-task collection whose id is the largest Go
`int` are distinct and positive, and after `Add` the new id is negative. -/
theorem Add_positive_ids_counterexample :
    UniqueIds [mkTodo maxInt64 StatusNotStarted none []] ∧
      PositiveIds [mkTodo maxInt64 StatusNotStarted none []] ∧
      ¬ PositiveIds (Add [mkTodo maxInt64 StatusNotStarted none []] "a" "b") := by
  decide

/-- C2, amended: for a collection whose ids are Go `int`s, pairwise distinct and
positive, the ids are still pairwise distinct after `Add`, `Delete`, `EditTitle` and
`UpdateStatus`, still positive after `Delete`, `EditTitle` and `UpdateStatus`, and
still positive after `Add` when every id is below the largest Go `int`.  For a run
of at most `2^63 - 1` calls of `Add` from the empty collection, all resulting ids
are distinct and positive, and each call appends a task whose id is 1 when the
collection was empty and otherwise one plus the maximum id present before it. -/
theorem ids_unique_positive_invariant (c : Todos) (calls : List (String × String))
    (hfit : IdsFitInt c) (huniq : UniqueIds c) (hpos : PositiveIds c)
    (hlen : (calls.length : Int) ≤ maxInt64) :
    ((∀ title assignedTo, UniqueIds (Add c title assignedTo) ∧
        ((∀ t ∈ c, t.Id < maxInt64) → PositiveIds (Add c title assignedTo))) ∧
      (∀ id, UniqueIds (Delete c id).2 ∧ PositiveIds (Delete c id).2) ∧
      (∀ id title, UniqueIds (EditTitle c id title).2 ∧
        PositiveIds (EditTitle c id title).2) ∧
      (∀ id s now, UniqueIds (UpdateStatus c id s now).2 ∧
        PositiveIds (UpdateStatus c id s now).2)) ∧
    (UniqueIds (addAll [] calls) ∧ PositiveIds (addAll [] calls) ∧
      ∀ pre call post, calls = pre ++ call :: post →
        ∃ n : Int, addAll [] (pre ++ [call]) = addAll [] pre ++ [freshTodo n call.1 call.2] ∧
          ((addAll [] pre = [] ∧ n = 1) ∨
            ∃ t ∈ addAll [] pre, (∀ u ∈ addAll [] pre, u.Id ≤ t.Id) ∧ n = t.Id + 1)) := by
  refine ⟨⟨?_, ?_, ?_, ?_⟩, ?_, ?_, ?_⟩
  · intro title assignedTo
    exact ⟨Add_unique c title assignedTo hfit huniq hpos,
      Add_positive c title assignedTo hpos⟩
  · intro id
    exact ⟨huniq.sublist ((Delete_sublist c id).map Todo.Id),
      fun t ht => hpos t (Delete_subset c id t ht)⟩
  · intro id title
    refine ⟨?_, positive_of_ids_eq c _ (EditTitle_ids c id title) hpos⟩
    unfold UniqueIds
    rw [EditTitle_ids]
    exact huniq
  · intro id s now
    refine ⟨?_, positive_of_ids_eq c _ (UpdateStatus_ids c id s now) hpos⟩
    unfold UniqueIds
    rw [UpdateStatus_ids]
    exact huniq
  · unfold UniqueIds
    rw [(addAll_empty_ids calls hlen).2]
    refine (List.nodup_range _).map ?_
    intro a b hab
    simpa using hab
  · intro t ht
    have hmem : t.Id ∈ (addAll [] calls).map Todo.Id := List.mem_map_of_mem Todo.Id ht
    rw [(addAll_empty_ids calls hlen).2] at hmem
    obtain ⟨i, _, hi⟩ := List.mem_map.1 hmem
    rw [← hi]
    omega
  · intro pre call post hcalls
    have hpre : (pre.length : Int) + 1 ≤ maxInt64 := by
      have h1 : calls.length = pre.length + (post.length + 1) := by
        rw [hcalls, List.length_append, List.length_cons]
      rw [h1] at hlen
      push_cast at hlen
      omega
    have hhigh := (addAll_empty_ids pre (by omega)).1
    refine ⟨(pre.length : Int) + 1, ?_, ?_⟩
    · rw [addAll_snoc, Add_eq, hhigh,
        wrapInt64_eq_self _ (by unfold minInt64; omega) hpre]
    · rcases highestID_attained (addAll [] pre) 0 with h0 | ⟨t, ht, hmax⟩
      · left
        rw [hhigh] at h0
        have hz : pre.length = 0 := by omega
        have hl := addAll_length [] pre
        rw [hz] at hl
        exact ⟨List.length_eq_zero.1 hl, by omega⟩
      · right
        refine ⟨t, ht, ?_, by rw [hmax, hhigh]⟩
        intro u hu
        rw [hmax]
        exact id_le_highestID _ 0 u hu

/-- C2, witness: the sample collection and two calls of `Add`. -/
theorem ids_unique_positive_invariant_witness :
    (IdsFitInt sampleTodos ∧ UniqueIds sampleTodos ∧ PositiveIds sampleTodos ∧
      (([("a", ""), ("b", "x")] : List (String × String)).length : Int) ≤ maxInt64) ∧
    ((∀ title assignedTo, UniqueIds (Add sampleTodos title assignedTo) ∧
        ((∀ t ∈ sampleTodos, t.Id < maxInt64) →
          PositiveIds (Add sampleTodos title assignedTo))) ∧
      (∀ id, UniqueIds (Delete sampleTodos id).2 ∧ PositiveIds (Delete sampleTodos id).2) ∧
      (∀ id title, UniqueIds (EditTitle sampleTodos id title).2 ∧
        PositiveIds (EditTitle sampleTodos id title).2) ∧
      (∀ id s now, UniqueIds (UpdateStatus sampleTodos id s now).2 ∧
        PositiveIds (UpdateStatus sampleTodos id s now).2)) ∧
    (UniqueIds (addAll [] [("a", ""), ("b", "x")]) ∧
      PositiveIds (addAll [] [("a", ""), ("b", "x")]) ∧
      ∀ pre call post, [("a", ""), ("b", "x")] = pre ++ call :: post →
        ∃ n : Int, addAll [] (pre ++ [call]) = addAll [] pre ++ [freshTodo n call.1 call.2] ∧
          ((addAll [] pre = [] ∧ n = 1) ∨
            ∃ t ∈ addAll [] pre, (∀ u ∈ addAll [] pre, u.Id ≤ t.Id) ∧ n = t.Id + 1)) :=
  ⟨by decide, ids_unique_positive_invariant sampleTodos [("a", ""), ("b", "x")]
    (by decide) (by decide) (by decide) (by decide)⟩

/-! ## C3 -/

/-- C4: for an id that occurs in `c`, `Delete` succeeds and the result is `c` without
the first task carrying that id: `c` splits as `pre ++ t :: post` with `t` the first
match and the result is `pre ++ post`, one shorter than `c`; when the ids of `c` are
pairwise distinct, no remaining task has the id and `FindById` reports not found. -/
theorem Delete_removes_first_match (c : Todos) (id : Int) (h : ∃ t ∈ c, t.Id = id) :
    ∃ pre t post, c = pre ++ t :: post ∧ t.Id = id ∧ (∀ x ∈ pre, x.Id ≠ id) ∧
      Delete c id = (none, pre ++ post) ∧
      (Delete c id).2.length + 1 = c.length ∧
      (UniqueIds c →
        (∀ x ∈ (Delete c id).2, x.Id ≠ id) ∧
          FindById (Delete c id).2 id = .error errNotFound) := by
  obtain ⟨pre, t, post, rfl, ht, hpre⟩ := exists_first_split c id h
  have hdel := Delete_first id pre t post hpre ht
  refine ⟨pre, t, post, rfl, ht, hpre, hdel, ?_, ?_⟩
  · rw [hdel]
    simp only [List.length_append, List.length_cons]
    omega
  · intro huniq
    rw [hdel]
    have habsent : ∀ x ∈ pre ++ post, x.Id ≠ id := by
      intro x hx
      rcases List.mem_append.1 hx with hx | hx
      · exact hpre x hx
      · intro hxid
        unfold UniqueIds at huniq
        rw [List.map_append, List.map_cons, List.nodup_append] at huniq
        have hnot := (List.nodup_cons.1 huniq.2.1).1
        apply hnot
        rw [ht, ← hxid]
        exact List.mem_map_of_mem Todo.Id hx
    exact ⟨habsent, FindById_absent _ id habsent⟩

/-- C4, witness: deleting id 1 from the sample collection. -/
theorem Delete_removes_first_match_witness :
    (∃ t ∈ sampleTodos, t.Id = 1) ∧
    ∃ pre t post, sampleTodos = pre ++ t :: post ∧ t.Id = 1 ∧ (∀ x ∈ pre, x.Id ≠ 1) ∧
      Delete sampleTodos 1 = (none, pre ++ post) ∧
      (Delete sampleTodos 1).2.length + 1 = sampleTodos.length ∧
      (UniqueIds sampleTodos →
        (∀ x ∈ (Delete sampleTodos 1).2, x.Id ≠ 1) ∧
          FindById (Delete sampleTodos 1).2 1 = .error errNotFound) :=
  ⟨by decide, Delete_removes_first_match sampleTodos 1 (by decide)⟩

/-! ## C5 -/

/-- C5: each of `Delete`, `EditTitle` and `UpdateStatus` returns the "task not found"
error exactly when no task of `c` has the id, and whenever it returns an error the
collection it leaves behind is `c` itself. -/
theorem NotFound_iff_absent_and_unchanged (c : Todos) (id : Int) (title : String)
    (s : TodoStatus) (now : Time) :
    (((Delete c id).1 = some errNotFound ↔ ∀ t ∈ c, t.Id ≠ id) ∧
      ∀ e, (Delete c id).1 = some e → e = errNotFound ∧ (Delete c id).2 = c) ∧
    (((EditTitle c id title).1 = some errNotFound ↔ ∀ t ∈ c, t.Id ≠ id) ∧
      ∀ e, (EditTitle c id title).1 = some e →
        e = errNotFound ∧ (EditTitle c id title).2 = c) ∧
    (((UpdateStatus c id s now).1 = some errNotFound ↔ ∀ t ∈ c, t.Id ≠ id) ∧
      ∀ e, (UpdateStatus c id s now).1 = some e →
        e = errNotFound ∧ (UpdateStatus c id s now).2 = c) := by
  rcases absent_or_split c id with h | ⟨pre, t, post, rfl, ht, hpre⟩
  · rw [Delete_absent c id h, EditTitle_absent c id title h, UpdateStatus_absent c id s now h]
    refine ⟨⟨⟨fun _ => h, fun _ => rfl⟩, ?_⟩, ⟨⟨fun _ => h, fun _ => rfl⟩, ?_⟩,
      ⟨⟨fun _ => h, fun _ => rfl⟩, ?_⟩⟩ <;>
    · intro e he
      exact ⟨(Option.some.inj he).symm, rfl⟩
  · rw [Delete_first id pre t post hpre ht, EditTitle_first id title pre t post hpre ht,
      UpdateStatus_first id s now pre t post hpre ht]
    have hpresent : ¬ ∀ x ∈ pre ++ t :: post, x.Id ≠ id := by
      intro hall
      exact hall t (List.mem_append_right _ (List.mem_cons_self _ _)) ht
    refine ⟨⟨⟨fun h => ?_, fun h => absurd h hpresent⟩, ?_⟩,
      ⟨⟨fun h => ?_, fun h => absurd h hpresent⟩, ?_⟩,
      ⟨⟨fun h => ?_, fun h => absurd h hpresent⟩, ?_⟩⟩
    all_goals first
      | exact absurd h (by simp)
      | (intro e he; exact absurd he (by simp))

/-! ## C6 -/

theorem updateAt_forall (P : Todo → Prop) (f : Todo → Todo) (hf : ∀ t, P t → P (f t))
    (todos : Todos) (index : Nat) (hc : ∀ t ∈ todos, P t) :
    ∀ t ∈ updateAt todos index f, P t := by
  unfold updateAt
  cases hget : todos[index]? with
  | none => exact hc
  | some u =>
    intro t ht
    rcases List.mem_or_eq_of_mem_set ht with hmem | rfl
    · exact hc t hmem
    · exact hf u (hc u (List.getElem?_mem hget))

theorem onTask_completion (s : TodoStatus) (now : Time) (t : Todo)
    (ht : t.CompletedAt ≠ none ↔ t.Status = StatusCompleted) :
    (UpdateStatus.onTask s now t).CompletedAt ≠ none ↔
      (UpdateStatus.onTask s now t).Status = StatusCompleted := by
  unfold UpdateStatus.onTask
  by_cases hs : s = StatusCompleted
  · simp [hs]
  · by_cases hold : t.Status = StatusCompleted
    · simp [hs, hold]
    · simp only [if_neg hs, if_neg hold]
      constructor
      · intro h; exact absurd (ht.1 h) hold
      · intro h; exact absurd h hs

theorem MarkComplete_completion (t : Todo) (now : Time) :
    (t.MarkComplete now).CompletedAt ≠ none ↔ (t.MarkComplete now).Status = StatusCompleted := by
  simp [Todo.MarkComplete]

theorem Add_completion (c : Todos) (title assignedTo : String) (h : CompletionInv c) :
    CompletionInv (Add c title assignedTo) := by
  intro t ht
  rw [Add_eq, List.mem_append, List.mem_singleton] at ht
  rcases ht with ht | rfl
  · exact h t ht
  · simp only [freshTodo, ne_eq, not_true_eq_false, false_iff]
    decide

theorem EditTitle_completion (c : Todos) (id : Int) (title : String) (h : CompletionInv c) :
    CompletionInv (EditTitle c id title).2 := by
  unfold EditTitle
  cases FindIndexById c id with
  | error e => exact h
  | ok index =>
    exact updateAt_forall (fun t => t.CompletedAt ≠ none ↔ t.Status = StatusCompleted)
      (fun t => { t with Task := title }) (fun t ht => ht) c index h

theorem UpdateStatus_completion (c : Todos) (id : Int) (s : TodoStatus) (now : Time)
    (h : CompletionInv c) : CompletionInv (UpdateStatus c id s now).2 := by
  unfold UpdateStatus
  cases FindIndexById c id with
  | error e => exact h
  | ok index =>
    exact updateAt_forall (fun t => t.CompletedAt ≠ none ↔ t.Status = StatusCompleted) _
      (onTask_completion s now) c index h

theorem markComplete_completion (c : Todos) (index : Nat) (now : Time) (h : CompletionInv c) :
    CompletionInv (updateAt c index (fun t => t.MarkComplete now)) :=
  updateAt_forall (fun t => t.CompletedAt ≠ none ↔ t.Status = StatusCompleted) _
    (fun t _ => MarkComplete_completion t now) c index h

theorem Reachable_completion (d : Todos) (h : Reachable d) : CompletionInv d := by
  induction h with
  | empty => intro t ht; simp at ht
  | add c title assignedTo _ ih => exact Add_completion c title assignedTo ih
  | delete c id _ ih => exact fun t ht => ih t (Delete_subset c id t ht)
  | editTitle c id title _ ih => exact EditTitle_completion c id title ih
  | updateStatus c id s now _ ih => exact UpdateStatus_completion c id s now ih
  | markComplete c index now _ ih => exact markComplete_completion c index now ih

/-- C6: the completion invariant (`CompletedAt` is present exactly when the status is
Completed, for every task) is preserved by `Add`, `Delete`, `EditTitle`,
`UpdateStatus` (any id, status and clock reading) and by `MarkComplete` on the task
at any index, and `MarkComplete` establishes it on the task it is called on; it
holds in every collection reachable from the empty one. -/
theorem completion_invariant_preserved (c d : Todos) (hinv : CompletionInv c)
    (hreach : Reachable d) :
    (∀ title assignedTo, CompletionInv (Add c title assignedTo)) ∧
    (∀ id, CompletionInv (Delete c id).2) ∧
    (∀ id title, CompletionInv (EditTitle c id title).2) ∧
    (∀ id s now, CompletionInv (UpdateStatus c id s now).2) ∧
    (∀ index now, CompletionInv (updateAt c index (fun t => t.MarkComplete now))) ∧
    (∀ (t : Todo) now, (t.MarkComplete now).CompletedAt ≠ none ∧
      (t.MarkComplete now).Status = StatusCompleted) ∧
    CompletionInv d :=
  ⟨fun title assignedTo => Add_completion c title assignedTo hinv,
    fun id t ht => hinv t (Delete_subset c id t ht),
    fun id title => EditTitle_completion c id title hinv,
    fun id s now => UpdateStatus_completion c id s now hinv,
    fun index now => markComplete_completion c index now hinv,
    fun _ _ => ⟨by simp [Todo.MarkComplete], rfl⟩,
    Reachable_completion d hreach⟩

/-- C6, witness: the sample collection, and the collection reached by adding a task
and completing it. -/
theorem completion_invariant_preserved_witness :
    (CompletionInv sampleTodos ∧
      Reachable (UpdateStatus (Add [] "a" "") 1 StatusCompleted 3).2) ∧
    ((∀ title assignedTo, CompletionInv (Add sampleTodos title assignedTo)) ∧
    (∀ id, CompletionInv (Delete sampleTodos id).2) ∧
    (∀ id title, CompletionInv (EditTitle sampleTodos id title).2) ∧
    (∀ id s now, CompletionInv (UpdateStatus sampleTodos id s now).2) ∧
    (∀ index now, CompletionInv (updateAt sampleTodos index (fun t => t.MarkComplete now))) ∧
    (∀ (t : Todo) now, (t.MarkComplete now).CompletedAt ≠ none ∧
      (t.MarkComplete now).Status = StatusCompleted) ∧
    CompletionInv (UpdateStatus (Add [] "a" "") 1 StatusCompleted 3).2) :=
  ⟨⟨by decide, Reachable.updateStatus _ 1 StatusCompleted 3 (Reachable.add [] "a" "" Reachable.empty)⟩,
    completion_invariant_preserved sampleTodos _ (by decide)
      (Reachable.updateStatus _ 1 StatusCompleted 3 (Reachable.add [] "a" "" Reachable.empty))⟩

/-! ## C7, C8, C9 -/

theorem FindById_ok_split (c : Todos) (id : Int) (t : Todo) (h : FindById c id = .ok t) :
    ∃ pre post, c = pre ++ t :: post ∧ t.Id = id ∧ ∀ x ∈ pre, x.Id ≠ id := by
  rcases absent_or_split c id with habs | ⟨pre, u, post, rfl, hu, hpre⟩
  · rw [FindById_absent c id habs] at h
    cases h
  · rw [FindById_first id pre u post hpre hu] at h
    cases h
    exact ⟨pre, post, rfl, hu, hpre⟩

theorem onTask_eq (s : TodoStatus) (now : Time) (t : Todo) :
    UpdateStatus.onTask s now t =
      { t with
        Status := s
        CompletedAt :=
          if s = StatusCompleted then some now
          else if t.Status = StatusCompleted then none else t.CompletedAt } := by
  unfold UpdateStatus.onTask
  split_ifs <;> rfl

/-- C7, counterexample: a task completed at time 5 whose status is set to Completed
again at time 9 ends up with completion time 9, not 5. -/
theorem UpdateStatus_completed_again_counterexample :
    FindById [mkTodo 1 StatusCompleted (some 5) []] 1
        = .ok (mkTodo 1 StatusCompleted (some 5) []) ∧
      UpdateStatus [mkTodo 1 StatusCompleted (some 5) []] 1 StatusCompleted 9
        = (none, [mkTodo 1 StatusCompleted (some 9) []]) ∧
      (mkTodo 1 StatusCompleted (some 9) []).CompletedAt
        ≠ (mkTodo 1 StatusCompleted (some 5) []).CompletedAt := by
  refine ⟨rfl, by decide, by decide⟩

/-- C7, amended: when the task addressed by `id` already has status Completed on
entry, `UpdateStatus(id, Completed)` succeeds and replaces that task's completion
time by the current time; the task is otherwise unchanged. -/
theorem UpdateStatus_completed_again (c : Todos) (id : Int) (now : Time) (t : Todo)
    (hfind : FindById c id = .ok t) (hdone : t.Status = StatusCompleted) :
    (UpdateStatus c id StatusCompleted now).1 = none ∧
      FindById (UpdateStatus c id StatusCompleted now).2 id
        = .ok { t with CompletedAt := some now } := by
  obtain ⟨pre, post, rfl, ht, hpre⟩ := FindById_ok_split c id t hfind
  rw [UpdateStatus_first id StatusCompleted now pre t post hpre ht]
  refine ⟨rfl, ?_⟩
  rw [FindById_first id pre _ post hpre (by rw [UpdateStatus_onTask_Id]; exact ht), onTask_eq,
    if_pos rfl, ← hdone]

/-- C7, witness: the completed task of the sample collection, completed again. -/
theorem UpdateStatus_completed_again_witness :
    (FindById sampleTodos 1 = .ok (mkTodo 1 StatusCompleted (some 7) []) ∧
      (mkTodo 1 StatusCompleted (some 7) []).Status = StatusCompleted) ∧
    ((UpdateStatus sampleTodos 1 StatusCompleted 9).1 = none ∧
      FindById (UpdateStatus sampleTodos 1 StatusCompleted 9).2 1
        = .ok { mkTodo 1 StatusCompleted (some 7) [] with CompletedAt := some 9 }) :=
  ⟨⟨rfl, rfl⟩, UpdateStatus_completed_again sampleTodos 1 9 _ rfl rfl⟩

/-- C8: for an id present in `c`, `UpdateStatus(id, s)` at time `now` succeeds and
rewrites only the first task `t` with that id: `c` splits as `pre ++ t :: post` and
the result is `pre`, then `t` with status `s` and with completion time `now` if `s`
is Completed, absent if `s` is not Completed and the old status was Completed, and
unchanged otherwise, then `post`; the length is unchanged. -/
theorem UpdateStatus_changes_first_match (c : Todos) (id : Int) (s : TodoStatus) (now : Time)
    (h : ∃ t ∈ c, t.Id = id) :
    ∃ pre t post, c = pre ++ t :: post ∧ t.Id = id ∧ (∀ x ∈ pre, x.Id ≠ id) ∧
      UpdateStatus c id s now =
        (none, pre ++
          { Id := t.Id, Task := t.Task, Status := s, Priority := t.Priority,
            AssignedTo := t.AssignedTo, DueDate := t.DueDate,
            EstimatedTime := t.EstimatedTime, TimeSpent := t.TimeSpent,
            CompletedAt :=
              if s = StatusCompleted then some now
              else if t.Status = StatusCompleted then none else t.CompletedAt,
            DependsOn := t.DependsOn } :: post) ∧
      (UpdateStatus c id s now).2.length = c.length := by
  obtain ⟨pre, t, post, rfl, ht, hpre⟩ := exists_first_split c id h
  have hupd := UpdateStatus_first id s now pre t post hpre ht
  refine ⟨pre, t, post, rfl, ht, hpre, ?_, ?_⟩
  · rw [hupd, onTask_eq]
  · rw [hupd]
    simp only [List.length_append, List.length_cons]

/-- C8, witness: task 4 of the sample collection is set to In Progress. -/
theorem UpdateStatus_changes_first_match_witness :
    (∃ t ∈ sampleTodos, t.Id = 4) ∧
    ∃ pre t post, sampleTodos = pre ++ t :: post ∧ t.Id = 4 ∧ (∀ x ∈ pre, x.Id ≠ 4) ∧
      UpdateStatus sampleTodos 4 StatusInProgress 9 =
        (none, pre ++
          { Id := t.Id, Task := t.Task, Status := StatusInProgress, Priority := t.Priority,
            AssignedTo := t.AssignedTo, DueDate := t.DueDate,
            EstimatedTime := t.EstimatedTime, TimeSpent := t.TimeSpent,
            CompletedAt :=
              if StatusInProgress = StatusCompleted then some 9
              else if t.Status = StatusCompleted then none else t.CompletedAt,
            DependsOn := t.DependsOn } :: post) ∧
      (UpdateStatus sampleTodos 4 StatusInProgress 9).2.length = sampleTodos.length :=
  ⟨by decide, UpdateStatus_changes_first_match sampleTodos 4 StatusInProgress 9 (by decide)⟩

/-- C9: for an id present in `c`, `UpdateStatus(id, Completed)` succeeds and
`FindById(id)` then returns a task with a completion time (the clock reading of the
call) and status Completed; a following `UpdateStatus(id, NotStarted)` succeeds and
`FindById(id)` then returns a task with no completion time. -/
theorem complete_then_reopen (c : Todos) (id : Int) (now later : Time)
    (h : ∃ t ∈ c, t.Id = id) :
    (UpdateStatus c id StatusCompleted now).1 = none ∧
    (∃ t1, FindById (UpdateStatus c id StatusCompleted now).2 id = .ok t1 ∧
      t1.CompletedAt ≠ none ∧ t1.CompletedAt = some now ∧ t1.Status = StatusCompleted) ∧
    (UpdateStatus (UpdateStatus c id StatusCompleted now).2 id StatusNotStarted later).1
      = none ∧
    ∃ t2, FindById
        (UpdateStatus (UpdateStatus c id StatusCompleted now).2 id StatusNotStarted later).2 id
          = .ok t2 ∧
      t2.CompletedAt = none ∧ t2.Status = StatusNotStarted := by
  obtain ⟨pre, t, post, rfl, ht, hpre⟩ := exists_first_split c id h
  have hid1 : (UpdateStatus.onTask StatusCompleted now t).Id = id := by
    rw [UpdateStatus_onTask_Id]; exact ht
  have hid2 : (UpdateStatus.onTask StatusNotStarted later
      (UpdateStatus.onTask StatusCompleted now t)).Id = id := by
    rw [UpdateStatus_onTask_Id]; exact hid1
  rw [UpdateStatus_first id StatusCompleted now pre t post hpre ht]
  simp only
  rw [UpdateStatus_first id StatusNotStarted later pre _ post hpre hid1]
  simp only
  rw [FindById_first id pre _ post hpre hid1, FindById_first id pre _ post hpre hid2]
  refine ⟨trivial, ⟨_, rfl, ?_, ?_, ?_⟩, trivial, ⟨_, rfl, ?_, ?_⟩⟩
  · rw [onTask_eq]; simp
  · rw [onTask_eq]; simp
  · rw [onTask_eq]
  · have hne : StatusNotStarted ≠ StatusCompleted := by decide
    rw [onTask_eq, onTask_eq]
    simp [hne]
  · rw [onTask_eq]

/-- C9, witness: task 4 of the sample collection is completed and reopened. -/
theorem complete_then_reopen_witness :
    (∃ t ∈ sampleTodos, t.Id = 4) ∧
    ((UpdateStatus sampleTodos 4 StatusCompleted 8).1 = none ∧
    (∃ t1, FindById (UpdateStatus sampleTodos 4 StatusCompleted 8).2 4 = .ok t1 ∧
      t1.CompletedAt ≠ none ∧ t1.CompletedAt = some 8 ∧ t1.Status = StatusCompleted) ∧
    (UpdateStatus (UpdateStatus sampleTodos 4 StatusCompleted 8).2 4 StatusNotStarted 9).1
      = none ∧
    ∃ t2, FindById
        (UpdateStatus (UpdateStatus sampleTodos 4 StatusCompleted 8).2 4 StatusNotStarted 9).2 4
          = .ok t2 ∧
      t2.CompletedAt = none ∧ t2.Status = StatusNotStarted) :=
  ⟨by decide, complete_then_reopen sampleTodos 4 8 9 (by decide)⟩

/-! ## C10 -/

theorem CanStart_loop_iff (c : Todos) (deps : List Int) :
    Todo.CanStart.loop c deps = true ↔
      ∀ d ∈ deps, ∃ u ∈ c, FindById c d = .ok u ∧ u.Status = StatusCompleted := by
  induction deps with
  | nil => simp [Todo.CanStart.loop]
  | cons d rest ih =>
    rw [List.forall_mem_cons]
    have hstep : Todo.CanStart.loop c (d :: rest) =
        (match FindById c d with
          | .error _ => false
          | .ok depTask =>
            if !depTask.IsComplete then false else Todo.CanStart.loop c rest) := rfl
    rw [hstep]
    cases hfind : FindById c d with
    | error e => simp
    | ok u =>
      obtain ⟨pre, post, hc, _, _⟩ := FindById_ok_split c d u hfind
      have hmem : u ∈ c := by rw [hc]; simp
      by_cases hdone : u.Status = StatusCompleted
      · have hl : (if !u.IsComplete then false else Todo.CanStart.loop c rest)
            = Todo.CanStart.loop c rest := by simp [Todo.IsComplete, hdone]
        dsimp only
        rw [hl, ih]
        constructor
        · intro h; exact ⟨⟨u, hmem, rfl, hdone⟩, h⟩
        · intro h; exact h.2
      · have hl : (if !u.IsComplete then false else Todo.CanStart.loop c rest) = false := by
          simp [Todo.IsComplete, hdone]
        dsimp only
        rw [hl]
        constructor
        · intro h; cases h
        · rintro ⟨⟨v, _, hv, hvd⟩, _⟩
          cases hv
          exact absurd hvd hdone

theorem CanStart_iff (t : Todo) (c : Todos) :
    t.CanStart c = true ↔
      ∀ d ∈ t.DependsOn, ∃ u ∈ c, FindById c d = .ok u ∧ u.Status = StatusCompleted := by
  unfold Todo.CanStart
  split_ifs with hlen
  · rw [List.length_eq_zero.1 hlen]
    simp
  · exact CanStart_loop_iff c t.DependsOn

/-- C10: `t.CanStart(c)` is true exactly when every id in `t.DependsOn` is found by
`FindById` in `c` and the task found has status Completed.  Hence it is true when
there are no dependencies, false when some dependency is missing from `c` or is
found with another status, and for dependencies `[2, 3]` it is true exactly when
both 2 and 3 are found and Completed.  The result is always a boolean. -/
theorem CanStart_iff_dependencies_completed (t : Todo) (c : Todos) :
    (t.CanStart c = true ↔
      ∀ d ∈ t.DependsOn, ∃ u ∈ c, FindById c d = .ok u ∧ u.Status = StatusCompleted) ∧
    (t.CanStart c = true ∨ t.CanStart c = false) ∧
    (t.DependsOn = [] → t.CanStart c = true) ∧
    (∀ d ∈ t.DependsOn, (∀ u ∈ c, u.Id ≠ d) → t.CanStart c = false) ∧
    (∀ d ∈ t.DependsOn, ∀ u, FindById c d = .ok u → u.Status ≠ StatusCompleted →
      t.CanStart c = false) ∧
    (t.DependsOn = [2, 3] →
      (t.CanStart c = true ↔
        (∃ u ∈ c, FindById c 2 = .ok u ∧ u.Status = StatusCompleted) ∧
          ∃ u ∈ c, FindById c 3 = .ok u ∧ u.Status = StatusCompleted)) := by
  have hiff := CanStart_iff t c
  refine ⟨hiff, ?_, ?_, ?_, ?_, ?_⟩
  · cases t.CanStart c <;> simp
  · intro hdeps
    rw [hiff, hdeps]
    simp
  · intro d hd habs
    rw [← Bool.not_eq_true, hiff]
    intro hall
    obtain ⟨u, _, hfind, _⟩ := hall d hd
    rw [FindById_absent c d habs] at hfind
    cases hfind
  · intro d hd u hfind hnot
    rw [← Bool.not_eq_true, hiff]
    intro hall
    obtain ⟨v, _, hfind', hdone⟩ := hall d hd
    rw [hfind] at hfind'
    cases hfind'
    exact hnot hdone
  · intro hdeps
    rw [hiff, hdeps]
    simp

/-- C10, example: task 5 depends on 2 and 3; it cannot start while 3 is missing or not
completed and can start once both are completed. -/
theorem CanStart_iff_dependencies_completed_witness :
    (mkTodo 5 StatusNotStarted none [2, 3]).CanStart
        [mkTodo 2 StatusCompleted (some 1) []] = false ∧
    (mkTodo 5 StatusNotStarted none [2, 3]).CanStart
        [mkTodo 2 StatusCompleted (some 1) [], mkTodo 3 StatusInProgress none []] = false ∧
    ((mkTodo 5 StatusNotStarted none [2, 3]).CanStart
        [mkTodo 2 StatusCompleted (some 1) [], mkTodo 3 StatusCompleted (some 2) []] = true ↔
      (∃ u ∈ [mkTodo 2 StatusCompleted (some 1) [], mkTodo 3 StatusCompleted (some 2) []],
        FindById [mkTodo 2 StatusCompleted (some 1) [],
          mkTodo 3 StatusCompleted (some 2) []] 2 = .ok u ∧ u.Status = StatusCompleted) ∧
      ∃ u ∈ [mkTodo 2 StatusCompleted (some 1) [], mkTodo 3 StatusCompleted (some 2) []],
        FindById [mkTodo 2 StatusCompleted (some 1) [],
          mkTodo 3 StatusCompleted (some 2) []] 3 = .ok u ∧ u.Status = StatusCompleted) ∧
    (mkTodo 5 StatusNotStarted none [2, 3]).CanStart
        [mkTodo 2 StatusCompleted (some 1) [], mkTodo 3 StatusCompleted (some 2) []] = true :=
  ⟨by decide, by decide,
    (CanStart_iff_dependencies_completed (mkTodo 5 StatusNotStarted none [2, 3])
      [mkTodo 2 StatusCompleted (some 1) [], mkTodo 3 StatusCompleted (some 2) []]).2.2.2.2.2 rfl,
    by decide⟩

/-! ## Status parsing -/

theorem scan_single (x : Char) (l : List Char) :
    ReplaceAll.scan [x] [] l 0 = l.filter (fun ch => ch != x) := by
  induction l with
  | nil => rfl
  | cons ch rest ih =>
    by_cases h : ch = x
    · subst h
      simp [ReplaceAll.scan, List.isPrefixOf, ih]
    · have hx : ¬ x = ch := fun e => h e.symm
      simp [ReplaceAll.scan, List.isPrefixOf, ih, h, hx]

theorem ReplaceAll_single (s : String) (x : Char) :
    ReplaceAll s ⟨[x]⟩ "" = ⟨s.data.filter (fun ch => ch != x)⟩ := by
  unfold ReplaceAll
  rw [if_neg (by simp)]
  exact congrArg String.mk (scan_single x s.data)

theorem foldl_ReplaceAll_single (xs : List Char) (s : String) :
    (xs.map (fun x => (⟨[x]⟩ : String))).foldl (fun result emoji => ReplaceAll result emoji "") s
      = ⟨s.data.filter (fun ch => !xs.contains ch)⟩ := by
  induction xs generalizing s with
  | nil => simp
  | cons x rest ih =>
    rw [List.map_cons, List.foldl_cons, ih, ReplaceAll_single]
    simp only [List.filter_filter]
    congr 1
    apply List.filter_congr
    intro ch _
    by_cases h : ch = x
    · subst h; simp
    · simp [h]

theorem emojiPatterns_eq : emojiPatterns = emojiGlyphs.map (fun x => (⟨[x]⟩ : String)) := by
  decide

theorem cleanStatusEmoji_eq (s : String) : cleanStatusEmoji s = TrimSpace (removeEmoji s) := by
  unfold cleanStatusEmoji removeEmoji
  rw [emojiPatterns_eq, foldl_ReplaceAll_single]

theorem dropWhile_head_false (p : Char → Bool) (l : List Char) (a : Char) (rest : List Char)
    (h : l.dropWhile p = a :: rest) : p a = false := by
  induction l with
  | nil => simp at h
  | cons b bs ih =>
    by_cases hb : p b = true
    · rw [List.dropWhile_cons_of_pos hb] at h
      exact ih h
    · rw [List.dropWhile_cons_of_neg hb] at h
      cases h
      simpa using hb

theorem dropWhile_dropWhile (p : Char → Bool) (l : List Char) :
    (l.dropWhile p).dropWhile p = l.dropWhile p := by
  cases h : l.dropWhile p with
  | nil => rfl
  | cons a rest =>
    have := dropWhile_head_false p l a rest h
    simp [List.dropWhile_cons, this]

/-- Trimming on the right keeps the left end free of white space. -/
theorem dropWhile_rtrim (p : Char → Bool) (m : List Char) (hm : m.dropWhile p = m) :
    ((m.reverse.dropWhile p).reverse).dropWhile p = (m.reverse.dropWhile p).reverse := by
  obtain ⟨t, ht⟩ : ∃ t, (m.reverse.dropWhile p).reverse ++ t = m := by
    obtain ⟨u, hu⟩ := List.dropWhile_suffix p (l := m.reverse)
    refine ⟨u.reverse, ?_⟩
    have := congrArg List.reverse hu
    rw [List.reverse_append, List.reverse_reverse] at this
    exact this
  cases hk : (m.reverse.dropWhile p).reverse with
  | nil => rfl
  | cons a rest =>
    rw [hk] at ht
    have ha : p a = false := dropWhile_head_false p m a (rest ++ t) (by rw [hm, ← ht]; rfl)
    simp [List.dropWhile_cons, ha]

theorem TrimSpace_idem (s : String) : TrimSpace (TrimSpace s) = TrimSpace s := by
  unfold TrimSpace
  congr 1
  simp only
  rw [dropWhile_rtrim isSpace _ (dropWhile_dropWhile isSpace s.data), List.reverse_reverse,
    dropWhile_dropWhile]

theorem ParseStatus_eq (lowerCase : Char → Char) (s : String) :
    ParseStatus lowerCase s =
      if normalizeStatus lowerCase s = "in progress" then .ok StatusInProgress
      else if normalizeStatus lowerCase s = "complete" ∨
          normalizeStatus lowerCase s = "completed" ∨ normalizeStatus lowerCase s = "done" then
        .ok StatusCompleted
      else if normalizeStatus lowerCase s = "not started" ∨
          normalizeStatus lowerCase s = "pending" ∨ normalizeStatus lowerCase s = "todo" then
        .ok StatusNotStarted
      else if normalizeStatus lowerCase s = "reject" ∨
          normalizeStatus lowerCase s = "rejected" then .ok StatusRejected
      else .error (errInvalidStatus s) := by
  unfold ParseStatus normalizeStatus
  rw [cleanStatusEmoji_eq]
  simp only [TrimSpace_idem]

/-! ## `ParseStatus` on a text -/

/-- On a text, `ParseStatus` returns each status exactly for its synonyms, compared
with the text cleaned by the functions of the program. -/
theorem ParseStatus_exact (lowerCase : Char → Char) (s : String) :
    (ParseStatus lowerCase s = .ok StatusInProgress ↔
      normalizeStatus lowerCase s = "in progress") ∧
    (ParseStatus lowerCase s = .ok StatusCompleted ↔
      normalizeStatus lowerCase s = "complete" ∨ normalizeStatus lowerCase s = "completed" ∨
        normalizeStatus lowerCase s = "done") ∧
    (ParseStatus lowerCase s = .ok StatusNotStarted ↔
      normalizeStatus lowerCase s = "not started" ∨ normalizeStatus lowerCase s = "pending" ∨
        normalizeStatus lowerCase s = "todo") ∧
    (ParseStatus lowerCase s = .ok StatusRejected ↔
      normalizeStatus lowerCase s = "reject" ∨ normalizeStatus lowerCase s = "rejected") ∧
    (ParseStatus lowerCase s = .error (errInvalidStatus s) ↔
      normalizeStatus lowerCase s ∉ ["in progress", "complete", "completed", "done",
        "not started", "pending", "todo", "reject", "rejected"]) := by
  rw [ParseStatus_eq]
  generalize normalizeStatus lowerCase s = n
  have h1 : StatusInProgress ≠ StatusCompleted := by decide
  have h2 : StatusInProgress ≠ StatusNotStarted := by decide
  have h3 : StatusInProgress ≠ StatusRejected := by decide
  have h4 : StatusCompleted ≠ StatusNotStarted := by decide
  have h5 : StatusCompleted ≠ StatusRejected := by decide
  have h6 : StatusNotStarted ≠ StatusRejected := by decide
  split_ifs with c1 c2 c3 c4
  · subst c1
    simp [h1, h2, h3]
  · rcases c2 with rfl | rfl | rfl <;> simp [h1.symm, h4, h5]
  · rcases c3 with rfl | rfl | rfl <;> simp [h2.symm, h4.symm, h6]
  · rcases c4 with rfl | rfl <;> simp [h3.symm, h5.symm, h6.symm]
  · simp only [not_or] at c2 c3 c4
    simp [c1, c2, c3, c4]

/-! ## C12 -/

/-- C12: for each of the four statuses, `ParseStatus` applied to the status cell that
`Print` writes (the status's glyph, a space, the status name) returns that status;
`ParseStatus("✅ Completed")` and `ParseStatus("done")` return Completed and
`ParseStatus("frobnicate")` returns the invalid-status error. -/
theorem ParseStatus_display_roundtrip (lowerCase : Char → Char) :
    (∀ status ∈ [StatusNotStarted, StatusInProgress, StatusCompleted, StatusRejected],
      ParseStatus lowerCase (Print.statusCell status) = .ok status) ∧
    Print.statusCell StatusCompleted = "✅ Completed" ∧
    ParseStatus lowerCase "✅ Completed" = .ok StatusCompleted ∧
    ParseStatus lowerCase "done" = .ok StatusCompleted ∧
    ParseStatus lowerCase "frobnicate" = .error (errInvalidStatus "frobnicate") := by
  refine ⟨?_, by decide, rfl, rfl, rfl⟩
  intro status hstatus
  simp only [List.mem_cons, List.mem_singleton, List.not_mem_nil, or_false] at hstatus
  rcases hstatus with rfl | rfl | rfl | rfl <;> rfl

/-! ## C13 -/

/-- C13: for an id present in `c`, `EditTitle(id, newTitle)` succeeds and rewrites
only the title of the first task `t` with that id: `c` splits as `pre ++ t :: post`
and the result is `pre`, then `t` with title `newTitle` and every other field as it
was, then `post`; the length is unchanged. -/
theorem EditTitle_changes_only_title (c : Todos) (id : Int) (newTitle : String)
    (h : ∃ t ∈ c, t.Id = id) :
    ∃ pre t post, c = pre ++ t :: post ∧ t.Id = id ∧ (∀ x ∈ pre, x.Id ≠ id) ∧
      EditTitle c id newTitle =
        (none, pre ++
          { Id := t.Id, Task := newTitle, Status := t.Status, Priority := t.Priority,
            AssignedTo := t.AssignedTo, DueDate := t.DueDate,
            EstimatedTime := t.EstimatedTime, TimeSpent := t.TimeSpent,
            CompletedAt := t.CompletedAt, DependsOn := t.DependsOn } :: post) ∧
      (EditTitle c id newTitle).2.length = c.length := by
  obtain ⟨pre, t, post, rfl, ht, hpre⟩ := exists_first_split c id h
  have hedit := EditTitle_first id newTitle pre t post hpre ht
  refine ⟨pre, t, post, rfl, ht, hpre, hedit, ?_⟩
  rw [hedit]
  simp only [List.length_append, List.length_cons]

/-- C13, witness: task 4 of the sample collection gets a new title. -/
theorem EditTitle_changes_only_title_witness :
    (∃ t ∈ sampleTodos, t.Id = 4) ∧
    ∃ pre t post, sampleTodos = pre ++ t :: post ∧ t.Id = 4 ∧ (∀ x ∈ pre, x.Id ≠ 4) ∧
      EditTitle sampleTodos 4 "Review spec" =
        (none, pre ++
          { Id := t.Id, Task := "Review spec", Status := t.Status, Priority := t.Priority,
            AssignedTo := t.AssignedTo, DueDate := t.DueDate,
            EstimatedTime := t.EstimatedTime, TimeSpent := t.TimeSpent,
            CompletedAt := t.CompletedAt, DependsOn := t.DependsOn } :: post) ∧
      (EditTitle sampleTodos 4 "Review spec").2.length = sampleTodos.length :=
  ⟨by decide, EditTitle_changes_only_title sampleTodos 4 "Review spec" (by decide)⟩

/-! ## C14 -/

/-- C14: the scenario of the specification.  From the empty collection,
`Add("Write spec", "")` creates task 1 with status NotStarted, `Add("Review spec", "")`
creates task 2, `UpdateStatus` of task 2 with the status parsed from "in progress"
succeeds and leaves task 2 In Progress without completion time, and `Delete(1)`
succeeds and leaves task 2 alone, so that `FindById(1)` reports not found. -/
theorem scenario_end_to_end (lowerCase : Char → Char) (now : Time) :
    Add [] "Write spec" "" = [freshTodo 1 "Write spec" ""] ∧
    (freshTodo 1 "Write spec" "").Status = StatusNotStarted ∧
    Add [freshTodo 1 "Write spec" ""] "Review spec" ""
      = [freshTodo 1 "Write spec" "", freshTodo 2 "Review spec" ""] ∧
    ParseStatus lowerCase "in progress" = .ok StatusInProgress ∧
    UpdateStatus [freshTodo 1 "Write spec" "", freshTodo 2 "Review spec" ""] 2
        StatusInProgress now
      = (none, [freshTodo 1 "Write spec" "",
          { freshTodo 2 "Review spec" "" with Status := StatusInProgress }]) ∧
    ({ freshTodo 2 "Review spec" "" with Status := StatusInProgress } : Todo).CompletedAt
      = none ∧
    Delete [freshTodo 1 "Write spec" "",
        { freshTodo 2 "Review spec" "" with Status := StatusInProgress }] 1
      = (none, [{ freshTodo 2 "Review spec" "" with Status := StatusInProgress }]) ∧
    FindById [{ freshTodo 2 "Review spec" "" with Status := StatusInProgress }] 1
      = .error errNotFound := by
  refine ⟨by decide, rfl, by decide, rfl, ?_, rfl, by decide, rfl⟩
  rfl

/-! ## C15 -/

/-- C15, the code at the claim's inputs: when no task of `c` has the id, each of the
three id-addressed branches of `Execute` (a `-del` id other than the unset value -1,
a well-formed `-edit id:new_title`, a well-formed `-updateStatus id:new_status`) calls
an operation that returns the "task not found" error, and `Execute` drops it: it
writes nothing, does not exit, and returns with the collection unchanged. -/
theorem Execute_drops_NotFound (lowerCase : Char → Char) (now : Time) (c : Todos) (id : Int)
    (habsent : ∀ t ∈ c, t.Id ≠ id) :
    (id ≠ -1 →
      (Delete c id).1 = some errNotFound ∧
        CmdFlags.Execute ⟨"", id, "", "", false⟩ lowerCase now c = ⟨c, [], none⟩) ∧
    (∀ edit part0 title del, edit ≠ "" → SplitN edit = [part0, title] → Atoi part0 = some id →
      (EditTitle c id title).1 = some errNotFound ∧
        CmdFlags.Execute ⟨"", del, edit, "", false⟩ lowerCase now c = ⟨c, [], none⟩) ∧
    (∀ update part0 part1 status del, update ≠ "" → SplitN update = [part0, part1] →
      Atoi part0 = some id → ParseStatus lowerCase part1 = .ok status →
      (UpdateStatus c id status now).1 = some errNotFound ∧
        CmdFlags.Execute ⟨"", del, "", update, false⟩ lowerCase now c = ⟨c, [], none⟩) := by
  refine ⟨?_, ?_, ?_⟩
  · intro hid
    refine ⟨by rw [Delete_absent c id habsent], ?_⟩
    simp [CmdFlags.Execute, hid, Delete_absent c id habsent]
  · intro edit part0 title del hedit hsplit hatoi
    refine ⟨by rw [EditTitle_absent c id title habsent], ?_⟩
    simp [CmdFlags.Execute, hedit, hsplit, hatoi, EditTitle_absent c id title habsent]
  · intro update part0 part1 status del hupdate hsplit hatoi hparse
    refine ⟨by rw [UpdateStatus_absent c id status now habsent], ?_⟩
    simp [CmdFlags.Execute, hupdate, hsplit, hatoi, hparse,
      UpdateStatus_absent c id status now habsent]

/-- C15, the failing inputs: on the sample collection (ids 1 and 4), `-del 7`,
`-edit 7:hello` and `-updateStatus 7:done` all end silently. -/
theorem Execute_drops_NotFound_witness :
    (∀ t ∈ sampleTodos, t.Id ≠ 7) ∧
    CmdFlags.Execute ⟨"", 7, "", "", false⟩ id 0 sampleTodos = ⟨sampleTodos, [], none⟩ ∧
    CmdFlags.Execute ⟨"", -1, "7:hello", "", false⟩ id 0 sampleTodos
      = ⟨sampleTodos, [], none⟩ ∧
    CmdFlags.Execute ⟨"", -1, "", "7:done", false⟩ id 0 sampleTodos
      = ⟨sampleTodos, [], none⟩ :=
  ⟨by decide,
    ((Execute_drops_NotFound id 0 sampleTodos 7 (by decide)).1 (by decide)).2,
    ((Execute_drops_NotFound id 0 sampleTodos 7 (by decide)).2.1 "7:hello" "7" "hello" (-1)
      (by decide) (by decide) (by decide)).2,
    ((Execute_drops_NotFound id 0 sampleTodos 7 (by decide)).2.2 "7:done" "7" "done"
      StatusCompleted (-1) (by decide) (by decide) (by decide) rfl).2⟩

/-! ## C16 -/

theorem getElem?_split_at (pre : List Todo) (t : Todo) (post : List Todo) :
    (pre ++ t :: post)[pre.length]? = some t := by
  induction pre with
  | nil => simp
  | cons x rest ih => simpa using ih

theorem getElem?_split_lt (pre : List Todo) (t : Todo) (post : List Todo) (j : Nat)
    (hj : j < pre.length) : ∃ x ∈ pre, (pre ++ t :: post)[j]? = some x := by
  induction pre generalizing j with
  | nil => simp at hj
  | cons x rest ih =>
    cases j with
    | zero => exact ⟨x, List.mem_cons_self _ _, by simp⟩
    | succ k =>
      obtain ⟨y, hy, hget⟩ := ih k (by simpa using hj)
      exact ⟨y, List.mem_cons_of_mem _ hy, by simpa using hget⟩

/-- C16: `FindIndexById` returns index `i` exactly when the element at `i` has the id
and no earlier element has it; `FindById` then returns that element, and conversely
what `FindById` returns is the element at the index `FindIndexById` returns; each of
the two returns an error, the "task not found" error, exactly when no element has
the id. -/
theorem FindIndexById_FindById_agree (todos : Todos) (id : Int) :
    (∀ i, FindIndexById todos id = .ok i ↔
      (todos[i]?.map Todo.Id = some id ∧ ∀ j < i, todos[j]?.map Todo.Id ≠ some id)) ∧
    (∀ i, FindIndexById todos id = .ok i →
      ∃ t, todos[i]? = some t ∧ FindById todos id = .ok t) ∧
    (∀ t, FindById todos id = .ok t →
      ∃ i, FindIndexById todos id = .ok i ∧ todos[i]? = some t) ∧
    (FindIndexById todos id = .error errNotFound ↔ ∀ t ∈ todos, t.Id ≠ id) ∧
    (FindById todos id = .error errNotFound ↔ ∀ t ∈ todos, t.Id ≠ id) ∧
    (∀ e, FindIndexById todos id = .error e → e = errNotFound) ∧
    (∀ e, FindById todos id = .error e → e = errNotFound) := by
  rcases absent_or_split todos id with habs | ⟨pre, t, post, rfl, ht, hpre⟩
  · rw [FindIndexById_absent todos id habs, FindById_absent todos id habs]
    refine ⟨?_, ?_, ?_, ?_, ?_, ?_, ?_⟩
    · intro i
      constructor
      · intro h; cases h
      · rintro ⟨hget, _⟩
        obtain ⟨u, hu, huid⟩ := Option.map_eq_some'.1 hget
        exact absurd huid (habs u (List.getElem?_mem hu))
    · intro i h; cases h
    · intro u h; cases h
    · exact ⟨fun _ => habs, fun _ => rfl⟩
    · exact ⟨fun _ => habs, fun _ => rfl⟩
    · intro e h; cases h; rfl
    · intro e h; cases h; rfl
  · have hpresent : ¬ ∀ x ∈ pre ++ t :: post, x.Id ≠ id := fun hall =>
      hall t (List.mem_append_right _ (List.mem_cons_self _ _)) ht
    rw [FindIndexById_first id pre t post hpre ht, FindById_first id pre t post hpre ht]
    refine ⟨?_, ?_, ?_, ?_, ?_, ?_, ?_⟩
    · intro i
      constructor
      · intro h
        cases h
        refine ⟨by rw [getElem?_split_at, Option.map_some', ht], ?_⟩
        intro j hj hget
        obtain ⟨x, hx, hxget⟩ := getElem?_split_lt pre t post j hj
        rw [hxget, Option.map_some'] at hget
        exact hpre x hx (Option.some.inj hget)
      · rintro ⟨hget, hbefore⟩
        rcases Nat.lt_trichotomy i pre.length with hlt | heq | hgt
        · obtain ⟨x, hx, hxget⟩ := getElem?_split_lt pre t post i hlt
          rw [hxget, Option.map_some'] at hget
          exact absurd (Option.some.inj hget) (hpre x hx)
        · rw [heq]
        · exact absurd (by rw [getElem?_split_at, Option.map_some', ht])
            (hbefore pre.length hgt)
    · intro i h
      cases h
      exact ⟨t, getElem?_split_at pre t post, rfl⟩
    · intro u h
      have hu : t = u := Except.ok.inj h
      subst hu
      exact ⟨pre.length, rfl, getElem?_split_at pre t post⟩
    · exact ⟨fun h => (by cases h), fun h => absurd h hpresent⟩
    · exact ⟨fun h => (by cases h), fun h => absurd h hpresent⟩
    · intro e h; cases h
    · intro e h; cases h

/-! ## Lookup after an operation -/

theorem FindById_append_ok (c d : Todos) (id : Int) (u : Todo) (h : FindById c id = .ok u) :
    FindById (c ++ d) id = .ok u := by
  obtain ⟨pre, post, rfl, hu, hpre⟩ := FindById_ok_split c id u h
  rw [List.append_assoc, List.cons_append]
  exact FindById_first id pre u (post ++ d) hpre hu

theorem FindById_ok_mem (c : Todos) (id : Int) (u : Todo) (h : FindById c id = .ok u) :
    u ∈ c := by
  obtain ⟨pre, post, rfl, _, _⟩ := FindById_ok_split c id u h
  exact List.mem_append_right _ (List.mem_cons_self _ _)

theorem FindById_replace_ne (pre : List Todo) (x y : Todo) (post : List Todo) (id : Int)
    (hx : x.Id ≠ id) (hy : y.Id ≠ id) :
    FindById (pre ++ y :: post) id = FindById (pre ++ x :: post) id := by
  induction pre with
  | nil => simp [FindById, hx, hy]
  | cons a rest ih =>
    show FindById (a :: (rest ++ y :: post)) id = FindById (a :: (rest ++ x :: post)) id
    simp only [FindById, ih]

theorem FindById_remove_ne (pre : List Todo) (x : Todo) (post : List Todo) (id : Int)
    (hx : x.Id ≠ id) : FindById (pre ++ post) id = FindById (pre ++ x :: post) id := by
  induction pre with
  | nil => simp [FindById, hx]
  | cons a rest ih =>
    show FindById (a :: (rest ++ post)) id = FindById (a :: (rest ++ x :: post)) id
    simp only [FindById, ih]

theorem FindById_Delete_ne (c : Todos) (id other : Int) (hne : id ≠ other) :
    FindById (Delete c id).2 other = FindById c other := by
  rcases absent_or_split c id with habs | ⟨pre, x, post, rfl, hx, hpre⟩
  · rw [Delete_absent c id habs]
  · rw [Delete_first id pre x post hpre hx]
    exact FindById_remove_ne pre x post other (by rw [hx]; exact hne)

/-- What `FindById` returns after the first task with id `id` was rewritten by a
function `f` that keeps ids: the rewritten task where it returned that task, and
what it returned before for every other id. -/
theorem FindById_after_rewrite (f : Todo → Todo) (hf : ∀ x, (f x).Id = x.Id)
    (pre : List Todo) (x : Todo) (post : List Todo) (id other : Int)
    (hpre : ∀ y ∈ pre, y.Id ≠ id) (hx : x.Id = id) (u : Todo)
    (hfind : FindById (pre ++ x :: post) other = .ok u) :
    (other = id ∧ u = x ∧ FindById (pre ++ f x :: post) other = .ok (f x)) ∨
      (other ≠ id ∧ FindById (pre ++ f x :: post) other = .ok u) := by
  by_cases hother : other = id
  · subst hother
    rw [FindById_first other pre x post hpre hx] at hfind
    have hu : x = u := Except.ok.inj hfind
    exact Or.inl ⟨rfl, hu.symm, FindById_first other pre (f x) post hpre (by rw [hf, hx])⟩
  · right
    refine ⟨hother, ?_⟩
    rw [FindById_replace_ne pre x (f x) post other (by rw [hx]; exact fun e => hother e.symm)
      (by rw [hf, hx]; exact fun e => hother e.symm)]
    exact hfind

theorem FindById_of_mem_unique (c : Todos) (t : Todo) (huniq : UniqueIds c) (ht : t ∈ c) :
    FindById c t.Id = .ok t := by
  obtain ⟨pre, u, post, rfl, hu, hpre⟩ := exists_first_split c t.Id ⟨t, ht, rfl⟩
  rw [FindById_first t.Id pre u post hpre hu]
  rcases List.mem_append.1 ht with hmem | hmem
  · exact absurd rfl (hpre t hmem)
  · rcases List.mem_cons.1 hmem with rfl | hpost
    · rfl
    · exfalso
      unfold UniqueIds at huniq
      rw [List.map_append, List.map_cons, List.nodup_append] at huniq
      apply (List.nodup_cons.1 huniq.2.1).1
      rw [hu]
      exact List.mem_map_of_mem Todo.Id hpost

theorem absent_after_Delete (id : Int) (pre : List Todo) (t : Todo) (post : List Todo)
    (huniq : UniqueIds (pre ++ t :: post)) (ht : t.Id = id) (hpre : ∀ x ∈ pre, x.Id ≠ id) :
    ∀ x ∈ pre ++ post, x.Id ≠ id := by
  intro x hx
  rcases List.mem_append.1 hx with hx | hx
  · exact hpre x hx
  · intro hxid
    unfold UniqueIds at huniq
    rw [List.map_append, List.map_cons, List.nodup_append] at huniq
    apply (List.nodup_cons.1 huniq.2.1).1
    rw [ht, ← hxid]
    exact List.mem_map_of_mem Todo.Id hx

theorem CanStart_false_of_unresolved (t : Todo) (c : Todos) (d : Int) (hd : d ∈ t.DependsOn)
    (hfind : ∀ u, FindById c d = .ok u → u.Status ≠ StatusCompleted) :
    t.CanStart c = false := by
  rw [← Bool.not_eq_true, CanStart_iff]
  intro hall
  obtain ⟨u, _, hu, hdone⟩ := hall d hd
  exact hfind u hu hdone

/-! ## C17 -/

/-- C17, counterexample: task 1 depends on task 2.  After `Delete(2)` task 1 cannot
start, but it is not blocked for good: `Add` assigns id 2 again, and once that task
is set to Completed task 1 can start, its dependencies never having changed. -/
theorem Delete_dependents_unblocked_counterexample :
    UniqueIds [mkTodo 1 StatusNotStarted none [2], mkTodo 2 StatusNotStarted none []] ∧
    Delete [mkTodo 1 StatusNotStarted none [2], mkTodo 2 StatusNotStarted none []] 2
      = (none, [mkTodo 1 StatusNotStarted none [2]]) ∧
    (mkTodo 1 StatusNotStarted none [2]).CanStart [mkTodo 1 StatusNotStarted none [2]]
      = false ∧
    Add [mkTodo 1 StatusNotStarted none [2]] "again" ""
      = [mkTodo 1 StatusNotStarted none [2], freshTodo 2 "again" ""] ∧
    UpdateStatus [mkTodo 1 StatusNotStarted none [2], freshTodo 2 "again" ""] 2
        StatusCompleted 5
      = (none, [mkTodo 1 StatusNotStarted none [2],
          { freshTodo 2 "again" "" with Status := StatusCompleted, CompletedAt := some 5 }]) ∧
    (mkTodo 1 StatusNotStarted none [2]).CanStart
        [mkTodo 1 StatusNotStarted none [2],
          { freshTodo 2 "again" "" with Status := StatusCompleted, CompletedAt := some 5 }]
      = true := by
  decide

/-- C17, amended: for a collection with pairwise distinct ids and an id `d` present in it,
`Delete(d)` succeeds and leaves the other tasks as they were, dependencies included
(`c` splits as `pre ++ x :: post` with `x` the task with id `d`, and the result is
`pre ++ post`); no remaining task has id `d`, and every remaining task whose
`DependsOn` contains `d` reports `CanStart = false` against the result. -/
theorem Delete_leaves_dependents_blocked (c : Todos) (d : Int) (huniq : UniqueIds c)
    (hd : ∃ t ∈ c, t.Id = d) :
    ∃ pre x post, c = pre ++ x :: post ∧ x.Id = d ∧ Delete c d = (none, pre ++ post) ∧
      (∀ t ∈ (Delete c d).2, t ∈ c ∧ t.Id ≠ d) ∧
      ∀ t ∈ (Delete c d).2, d ∈ t.DependsOn → t.CanStart (Delete c d).2 = false := by
  obtain ⟨pre, x, post, rfl, hx, hpre⟩ := exists_first_split c d hd
  have hdel := Delete_first d pre x post hpre hx
  have habs := absent_after_Delete d pre x post huniq hx hpre
  refine ⟨pre, x, post, rfl, hx, hdel, ?_, ?_⟩
  · intro t ht
    refine ⟨Delete_subset _ d t ht, ?_⟩
    rw [hdel] at ht
    exact habs t ht
  · intro t _ hdep
    rw [hdel]
    apply CanStart_false_of_unresolved t _ d hdep
    intro u hu
    rw [FindById_absent _ d habs] at hu
    cases hu

/-- C17, witness: deleting task 1 of the sample collection, on which task 4 depends. -/
theorem Delete_leaves_dependents_blocked_witness :
    (UniqueIds sampleTodos ∧ ∃ t ∈ sampleTodos, t.Id = 1) ∧
    ∃ pre x post, sampleTodos = pre ++ x :: post ∧ x.Id = 1 ∧
      Delete sampleTodos 1 = (none, pre ++ post) ∧
      (∀ t ∈ (Delete sampleTodos 1).2, t ∈ sampleTodos ∧ t.Id ≠ 1) ∧
      ∀ t ∈ (Delete sampleTodos 1).2, (1 : Int) ∈ t.DependsOn →
        t.CanStart (Delete sampleTodos 1).2 = false :=
  ⟨by decide, Delete_leaves_dependents_blocked sampleTodos 1 (by decide) (by decide)⟩

/-! ## C18 -/

theorem onTask_Status (s : TodoStatus) (now : Time) (t : Todo) :
    (UpdateStatus.onTask s now t).Status = s := by
  rw [onTask_eq]

theorem onTask_DependsOn (s : TodoStatus) (now : Time) (t : Todo) :
    (UpdateStatus.onTask s now t).DependsOn = t.DependsOn := by
  rw [onTask_eq]

/-- A call that spares the task with id `tid` keeps `FindById(tid)` at a task that
is not completed and has the same dependencies. -/
theorem open_task_step (tid : Int) (deps : List Int) (c : Todos) (s : Step)
    (hspares : s.spares tid = true)
    (hopen : ∃ u, FindById c tid = .ok u ∧ u.DependsOn = deps ∧ u.Status ≠ StatusCompleted) :
    ∃ u, FindById (s.apply c) tid = .ok u ∧ u.DependsOn = deps ∧
      u.Status ≠ StatusCompleted := by
  obtain ⟨u, hfind, hdeps, hstatus⟩ := hopen
  cases s with
  | add title assignedTo =>
    exact ⟨u, FindById_append_ok c _ tid u hfind, hdeps, hstatus⟩
  | delete id =>
    have hne : id ≠ tid := by simpa [Step.spares] using hspares
    exact ⟨u, by rw [Step.apply, FindById_Delete_ne c id tid hne]; exact hfind, hdeps, hstatus⟩
  | editTitle id title =>
    rcases absent_or_split c id with habs | ⟨pre, x, post, rfl, hx, hpre⟩
    · exact ⟨u, by rw [Step.apply, EditTitle_absent c id title habs]; exact hfind, hdeps,
        hstatus⟩
    · rw [Step.apply, EditTitle_first id title pre x post hpre hx]
      rcases FindById_after_rewrite (fun t => { t with Task := title }) (fun _ => rfl)
        pre x post id tid hpre hx u hfind with ⟨_, hux, hnew⟩ | ⟨_, hsame⟩
      · subst hux
        exact ⟨_, hnew, hdeps, hstatus⟩
      · exact ⟨u, hsame, hdeps, hstatus⟩
  | updateStatus id status now =>
    rcases absent_or_split c id with habs | ⟨pre, x, post, rfl, hx, hpre⟩
    · exact ⟨u, by rw [Step.apply, UpdateStatus_absent c id status now habs]; exact hfind,
        hdeps, hstatus⟩
    · rw [Step.apply, UpdateStatus_first id status now pre x post hpre hx]
      rcases FindById_after_rewrite (UpdateStatus.onTask status now)
        (UpdateStatus_onTask_Id status now) pre x post id tid hpre hx u hfind with
        ⟨htid, hux, hnew⟩ | ⟨_, hsame⟩
      · subst hux
        have hst : status ≠ StatusCompleted := by
          simpa [Step.spares, htid] using hspares
        refine ⟨_, hnew, ?_, ?_⟩
        · rw [onTask_DependsOn]; exact hdeps
        · rw [onTask_Status]; exact hst
      · exact ⟨u, hsame, hdeps, hstatus⟩

theorem open_task_run (tid : Int) (deps : List Int) (steps : List Step) (c : Todos)
    (hspares : ∀ s ∈ steps, s.spares tid = true)
    (hopen : ∃ u, FindById c tid = .ok u ∧ u.DependsOn = deps ∧ u.Status ≠ StatusCompleted) :
    ∃ u, FindById (runSteps c steps) tid = .ok u ∧ u.DependsOn = deps ∧
      u.Status ≠ StatusCompleted := by
  induction steps generalizing c with
  | nil => exact hopen
  | cons s rest ih =>
    rw [List.forall_mem_cons] at hspares
    exact ih (s.apply c) hspares.2 (open_task_step tid deps c s hspares.1 hopen)

/-- C18, counterexample: a completed task that depends on itself can start; and a
task that depends on itself can start once `UpdateStatus` has set it to Completed. -/
theorem self_dependency_satisfied_counterexample :
    UniqueIds [mkTodo 1 StatusCompleted (some 3) [1]] ∧
      (mkTodo 1 StatusCompleted (some 3) [1]).CanStart [mkTodo 1 StatusCompleted (some 3) [1]]
        = true ∧
      (mkTodo 1 StatusNotStarted none [1]).CanStart [mkTodo 1 StatusNotStarted none [1]]
        = false ∧
      UpdateStatus [mkTodo 1 StatusNotStarted none [1]] 1 StatusCompleted 3
        = (none, [mkTodo 1 StatusCompleted (some 3) [1]]) ∧
      (mkTodo 1 StatusNotStarted none [1]).CanStart
          (UpdateStatus [mkTodo 1 StatusNotStarted none [1]] 1 StatusCompleted 3).2 = true := by
  decide

/-- C18, amended: a self-dependency is unsatisfied as long as the task is not
Completed.  For a collection `c` with pairwise distinct ids and a task `t` of `c`
that is not Completed and whose `DependsOn` contains its own id, after every sequence
of `Add`, `EditTitle`, `UpdateStatus` and `Delete` calls that neither deletes `t`
nor sets its status to Completed, `FindById` still finds a task with `t`'s id and
dependencies that is not Completed, and `CanStart` of `t` and of that task is false. -/
theorem self_dependency_blocked_while_open (c : Todos) (t : Todo) (steps : List Step)
    (huniq : UniqueIds c) (ht : t ∈ c) (hself : t.Id ∈ t.DependsOn)
    (hopen : t.Status ≠ StatusCompleted) (hspares : ∀ s ∈ steps, s.spares t.Id = true) :
    t.CanStart (runSteps c steps) = false ∧
      ∃ u, FindById (runSteps c steps) t.Id = .ok u ∧ u.DependsOn = t.DependsOn ∧
        u.Status ≠ StatusCompleted ∧ u.CanStart (runSteps c steps) = false := by
  obtain ⟨u, hfind, hdeps, hstatus⟩ := open_task_run t.Id t.DependsOn steps c hspares
    ⟨t, FindById_of_mem_unique c t huniq ht, rfl, hopen⟩
  have hblocked : ∀ v, FindById (runSteps c steps) t.Id = .ok v → v.Status ≠ StatusCompleted := by
    intro v hv
    rw [hfind] at hv
    cases hv
    exact hstatus
  refine ⟨CanStart_false_of_unresolved t _ t.Id hself hblocked, u, hfind, hdeps, hstatus, ?_⟩
  exact CanStart_false_of_unresolved u _ t.Id (by rw [hdeps]; exact hself) hblocked

/-- C18, witness: task 1 depends on itself; a task is added, task 1 is set to
In Progress and renamed, and task 2 is deleted. -/
theorem self_dependency_blocked_while_open_witness :
    (UniqueIds [mkTodo 1 StatusNotStarted none [1], mkTodo 2 StatusNotStarted none []] ∧
      mkTodo 1 StatusNotStarted none [1] ∈
        [mkTodo 1 StatusNotStarted none [1], mkTodo 2 StatusNotStarted none []] ∧
      (mkTodo 1 StatusNotStarted none [1]).Id ∈ (mkTodo 1 StatusNotStarted none [1]).DependsOn ∧
      (mkTodo 1 StatusNotStarted none [1]).Status ≠ StatusCompleted ∧
      ∀ s ∈ [Step.add "a" "", Step.updateStatus 1 StatusInProgress 3, Step.delete 2,
          Step.editTitle 1 "b", Step.updateStatus 3 StatusCompleted 4],
        s.spares (mkTodo 1 StatusNotStarted none [1]).Id = true) ∧
    ((mkTodo 1 StatusNotStarted none [1]).CanStart
        (runSteps [mkTodo 1 StatusNotStarted none [1], mkTodo 2 StatusNotStarted none []]
          [Step.add "a" "", Step.updateStatus 1 StatusInProgress 3, Step.delete 2,
            Step.editTitle 1 "b", Step.updateStatus 3 StatusCompleted 4]) = false ∧
      ∃ u, FindById
          (runSteps [mkTodo 1 StatusNotStarted none [1], mkTodo 2 StatusNotStarted none []]
            [Step.add "a" "", Step.updateStatus 1 StatusInProgress 3, Step.delete 2,
              Step.editTitle 1 "b", Step.updateStatus 3 StatusCompleted 4])
          (mkTodo 1 StatusNotStarted none [1]).Id = .ok u ∧
        u.DependsOn = (mkTodo 1 StatusNotStarted none [1]).DependsOn ∧
        u.Status ≠ StatusCompleted ∧
        u.CanStart
          (runSteps [mkTodo 1 StatusNotStarted none [1], mkTodo 2 StatusNotStarted none []]
            [Step.add "a" "", Step.updateStatus 1 StatusInProgress 3, Step.delete 2,
              Step.editTitle 1 "b", Step.updateStatus 3 StatusCompleted 4]) = false) :=
  ⟨by decide, self_dependency_blocked_while_open _ _ _ (by decide) (by decide) (by decide)
    (by decide) (by decide)⟩

/-! ## C19 -/

/-- C19, counterexample: in the collection with ids `-2^63` and `2^63 - 1`, `Add`
assigns id `-2^63` again, and `Delete` of that id removes the first task, not the
appended one, so the result is not the collection before `Add`. -/
theorem Delete_after_Add_counterexample :
    Add [mkTodo minInt64 StatusNotStarted none [], mkTodo maxInt64 StatusNotStarted none []]
        "a" "b"
      = [mkTodo minInt64 StatusNotStarted none [], mkTodo maxInt64 StatusNotStarted none [],
          freshTodo minInt64 "a" "b"] ∧
    Delete [mkTodo minInt64 StatusNotStarted none [], mkTodo maxInt64 StatusNotStarted none [],
        freshTodo minInt64 "a" "b"] (freshTodo minInt64 "a" "b").Id
      = (none, [mkTodo maxInt64 StatusNotStarted none [], freshTodo minInt64 "a" "b"]) ∧
    [mkTodo maxInt64 StatusNotStarted none [], freshTodo minInt64 "a" "b"]
      ≠ [mkTodo minInt64 StatusNotStarted none [], mkTodo maxInt64 StatusNotStarted none []] := by
  decide

/-- C19, amended: for a collection `c` whose ids are all below the largest Go `int`
(no uniqueness or positivity assumed), `Add` appends one task whose id differs from
every id of `c`, and `Delete` of that id on the result succeeds and returns exactly
`c`. -/
theorem Delete_undoes_Add (c : Todos) (title assignedTo : String)
    (hbound : ∀ t ∈ c, t.Id < maxInt64) :
    ∃ new, Add c title assignedTo = c ++ [new] ∧ (∀ t ∈ c, t.Id ≠ new.Id) ∧
      Delete (Add c title assignedTo) new.Id = (none, c) := by
  have hlt := highestID_lt_max c hbound
  have hge := start_le_highestID c 0
  have hfresh : ∀ t ∈ c, t.Id ≠ (freshTodo (wrapInt64 (Add.highestID c 0 + 1)) title assignedTo).Id := by
    intro t ht
    have hle := id_le_highestID c 0 t ht
    change t.Id ≠ wrapInt64 (Add.highestID c 0 + 1)
    rw [wrapInt64_eq_self _ (by unfold minInt64; omega) (by omega)]
    omega
  refine ⟨freshTodo (wrapInt64 (Add.highestID c 0 + 1)) title assignedTo, Add_eq c _ _,
    hfresh, ?_⟩
  rw [Add_eq, Delete_first _ c _ [] hfresh rfl, List.append_nil]

/-- C19, witness: the sample collection. -/
theorem Delete_undoes_Add_witness :
    (∀ t ∈ sampleTodos, t.Id < maxInt64) ∧
    ∃ new, Add sampleTodos "a" "b" = sampleTodos ++ [new] ∧
      (∀ t ∈ sampleTodos, t.Id ≠ new.Id) ∧
      Delete (Add sampleTodos "a" "b") new.Id = (none, sampleTodos) :=
  ⟨by decide, Delete_undoes_Add sampleTodos "a" "b" (by decide)⟩

/-! ## C20 -/

/-- When every dependency that resolved to a completed task in `c` still does in
`d`, a task that could start against `c` can start against `d`. -/
theorem CanStart_of_resolutions_kept (c d : Todos)
    (hkept : ∀ dep u, FindById c dep = .ok u → u.Status = StatusCompleted →
      ∃ v, FindById d dep = .ok v ∧ v.Status = StatusCompleted)
    (t u : Todo) (hdeps : u.DependsOn = t.DependsOn) (hstart : t.CanStart c = true) :
    u.CanStart d = true := by
  rw [CanStart_iff] at hstart ⊢
  intro dep hdep
  rw [hdeps] at hdep
  obtain ⟨w, _, hw, hdone⟩ := hstart dep hdep
  obtain ⟨v, hv, hvdone⟩ := hkept dep w hw hdone
  exact ⟨v, FindById_ok_mem d dep v hv, hv, hvdone⟩

theorem UpdateStatus_Completed_keeps (c : Todos) (id : Int) (now : Time) (dep : Int) (u : Todo)
    (hfind : FindById c dep = .ok u) (hdone : u.Status = StatusCompleted) :
    ∃ v, FindById (UpdateStatus c id StatusCompleted now).2 dep = .ok v ∧
      v.Status = StatusCompleted := by
  rcases absent_or_split c id with habs | ⟨pre, x, post, rfl, hx, hpre⟩
  · rw [UpdateStatus_absent c id _ now habs]
    exact ⟨u, hfind, hdone⟩
  · rw [UpdateStatus_first id _ now pre x post hpre hx]
    rcases FindById_after_rewrite (UpdateStatus.onTask StatusCompleted now)
      (UpdateStatus_onTask_Id _ now) pre x post id dep hpre hx u hfind with
      ⟨_, _, hnew⟩ | ⟨_, hsame⟩
    · exact ⟨_, hnew, onTask_Status _ now x⟩
    · exact ⟨u, hsame, hdone⟩

theorem EditTitle_keeps (c : Todos) (id : Int) (title : String) (dep : Int) (u : Todo)
    (hfind : FindById c dep = .ok u) (hdone : u.Status = StatusCompleted) :
    ∃ v, FindById (EditTitle c id title).2 dep = .ok v ∧ v.Status = StatusCompleted := by
  rcases absent_or_split c id with habs | ⟨pre, x, post, rfl, hx, hpre⟩
  · rw [EditTitle_absent c id title habs]
    exact ⟨u, hfind, hdone⟩
  · rw [EditTitle_first id title pre x post hpre hx]
    rcases FindById_after_rewrite (fun t => { t with Task := title }) (fun _ => rfl)
      pre x post id dep hpre hx u hfind with ⟨_, hux, hnew⟩ | ⟨_, hsame⟩
    · subst hux
      exact ⟨_, hnew, hdone⟩
    · exact ⟨u, hsame, hdone⟩

/-- C20: if `t.CanStart(c)` is true, then after `UpdateStatus(id, Completed)` for any
id, after any `Add` and after any `EditTitle`, `CanStart` against the resulting
collection is still true for `t` and for every task with the dependencies of `t`
(such as the task the operation made of `t`). -/
theorem CanStart_monotone (c : Todos) (t : Todo) (hstart : t.CanStart c = true) :
    (∀ (id : Int) (now : Time) (u : Todo), u.DependsOn = t.DependsOn →
      u.CanStart (UpdateStatus c id StatusCompleted now).2 = true) ∧
    (∀ (title assignedTo : String) (u : Todo), u.DependsOn = t.DependsOn →
      u.CanStart (Add c title assignedTo) = true) ∧
    (∀ (id : Int) (title : String) (u : Todo), u.DependsOn = t.DependsOn →
      u.CanStart (EditTitle c id title).2 = true) := by
  refine ⟨?_, ?_, ?_⟩
  · intro id now u hdeps
    exact CanStart_of_resolutions_kept c _
      (fun dep w hw hdone => UpdateStatus_Completed_keeps c id now dep w hw hdone)
      t u hdeps hstart
  · intro title assignedTo u hdeps
    exact CanStart_of_resolutions_kept c _
      (fun dep w hw hdone => ⟨w, FindById_append_ok c _ dep w hw, hdone⟩) t u hdeps hstart
  · intro id title u hdeps
    exact CanStart_of_resolutions_kept c _
      (fun dep w hw hdone => EditTitle_keeps c id title dep w hw hdone) t u hdeps hstart

/-- C20, witness: task 4 of the sample collection depends on the completed task 1. -/
theorem CanStart_monotone_witness :
    (mkTodo 4 StatusNotStarted none [1]).CanStart sampleTodos = true ∧
    ((∀ (id : Int) (now : Time) (u : Todo), u.DependsOn = (mkTodo 4 StatusNotStarted none [1]).DependsOn →
      u.CanStart (UpdateStatus sampleTodos id StatusCompleted now).2 = true) ∧
    (∀ (title assignedTo : String) (u : Todo), u.DependsOn = (mkTodo 4 StatusNotStarted none [1]).DependsOn →
      u.CanStart (Add sampleTodos title assignedTo) = true) ∧
    (∀ (id : Int) (title : String) (u : Todo), u.DependsOn = (mkTodo 4 StatusNotStarted none [1]).DependsOn →
      u.CanStart (EditTitle sampleTodos id title).2 = true)) :=
  ⟨by decide, CanStart_monotone sampleTodos (mkTodo 4 StatusNotStarted none [1]) (by decide)⟩

/-! ## UTF-8: what the byte-level functions compute on the bytes of a text -/

theorem char_valid (ch : Char) :
    ch.toNat < 55296 ∨ (57343 < ch.toNat ∧ ch.toNat < 1114112) := ch.valid

/-- The encoding of a code point is one of four shapes: a start byte, which is no
continuation byte, followed by up to three continuation bytes. -/
theorem utf8Encode_cases (ch : Char) :
    (∃ a, utf8Encode ch = [a] ∧ a < 128) ∨
    (∃ a b, utf8Encode ch = [a, b] ∧ 194 ≤ a ∧ a ≤ 223 ∧ isCont b = true) ∨
    (∃ a b c, utf8Encode ch = [a, b, c] ∧ 224 ≤ a ∧ a ≤ 239 ∧ isCont b = true ∧
      isCont c = true) ∨
    (∃ a b c d, utf8Encode ch = [a, b, c, d] ∧ 240 ≤ a ∧ a ≤ 244 ∧ isCont b = true ∧
      isCont c = true ∧ isCont d = true) := by
  have hv := char_valid ch
  have hcont : ∀ b : Nat, 128 ≤ b → b ≤ 191 → isCont b = true := by
    intro b h1 h2
    simp only [isCont, Bool.and_eq_true, decide_eq_true_eq]
    exact ⟨h1, h2⟩
  by_cases h1 : ch.toNat < 128
  · exact Or.inl ⟨ch.toNat, by simp [utf8Encode, h1], h1⟩
  · by_cases h2 : ch.toNat < 2048
    · exact Or.inr (Or.inl ⟨192 + ch.toNat / 64, 128 + ch.toNat % 64,
        by simp only [utf8Encode, if_neg h1, if_pos h2], by omega,
        by omega, hcont _ (by omega) (by omega)⟩)
    · by_cases h3 : ch.toNat < 65536
      · exact Or.inr (Or.inr (Or.inl ⟨224 + ch.toNat / 4096, 128 + ch.toNat / 64 % 64,
          128 + ch.toNat % 64,
          by simp only [utf8Encode, if_neg h1, if_neg h2, if_pos h3], by omega, by omega,
          hcont _ (by omega) (by omega), hcont _ (by omega) (by omega)⟩))
      · exact Or.inr (Or.inr (Or.inr ⟨240 + ch.toNat / 262144, 128 + ch.toNat / 4096 % 64,
          128 + ch.toNat / 64 % 64, 128 + ch.toNat % 64,
          by simp only [utf8Encode, if_neg h1, if_neg h2, if_neg h3], by omega, by omega,
          hcont _ (by omega) (by omega), hcont _ (by omega) (by omega),
          hcont _ (by omega) (by omega)⟩))

theorem decodeRune_utf8Encode (ch : Char) (rest : Bytes) :
    decodeRune (utf8Encode ch ++ rest) = (ch, (utf8Encode ch).length) := by
  have hv := char_valid ch
  unfold utf8Encode
  simp only
  split_ifs with h1 h2 h3
  · simp [decodeRune, h1]
  · have ha : ¬ (192 + ch.toNat / 64 < 128) := by omega
    have hb : 194 ≤ 192 + ch.toNat / 64 ∧ 192 + ch.toNat / 64 ≤ 223 := by omega
    have hc : isCont (128 + ch.toNat % 64) = true := by
      simp only [isCont, Bool.and_eq_true, decide_eq_true_eq]; omega
    have hn : (192 + ch.toNat / 64 - 192) * 64 + (128 + ch.toNat % 64 - 128) = ch.toNat := by
      omega
    simp only [List.cons_append, List.nil_append, decodeRune, if_neg ha, if_pos hb, if_pos hc,
      hn, Char.ofNat_toNat, List.length_cons, List.length_nil]
  · have ha : ¬ (224 + ch.toNat / 4096 < 128) := by omega
    have hb : ¬ (194 ≤ 224 + ch.toNat / 4096 ∧ 224 + ch.toNat / 4096 ≤ 223) := by omega
    have hc : 224 ≤ 224 + ch.toNat / 4096 ∧ 224 + ch.toNat / 4096 ≤ 239 := by omega
    have hd : (if 224 + ch.toNat / 4096 = 224 then 160 else 128) ≤ 128 + ch.toNat / 64 % 64 ∧
        128 + ch.toNat / 64 % 64 ≤ (if 224 + ch.toNat / 4096 = 237 then 159 else 191) ∧
        isCont (128 + ch.toNat % 64) = true := by
      simp only [isCont, Bool.and_eq_true, decide_eq_true_eq]
      split_ifs <;> omega
    have hn : (224 + ch.toNat / 4096 - 224) * 4096 + (128 + ch.toNat / 64 % 64 - 128) * 64
        + (128 + ch.toNat % 64 - 128) = ch.toNat := by omega
    simp only [List.cons_append, List.nil_append, decodeRune, if_neg ha, if_neg hb, if_pos hc,
      if_pos hd, hn, Char.ofNat_toNat, List.length_cons, List.length_nil]
  · have ha : ¬ (240 + ch.toNat / 262144 < 128) := by omega
    have hb : ¬ (194 ≤ 240 + ch.toNat / 262144 ∧ 240 + ch.toNat / 262144 ≤ 223) := by omega
    have hc : ¬ (224 ≤ 240 + ch.toNat / 262144 ∧ 240 + ch.toNat / 262144 ≤ 239) := by omega
    have he : 240 ≤ 240 + ch.toNat / 262144 ∧ 240 + ch.toNat / 262144 ≤ 244 := by omega
    have hd : (if 240 + ch.toNat / 262144 = 240 then 144 else 128)
          ≤ 128 + ch.toNat / 4096 % 64 ∧
        128 + ch.toNat / 4096 % 64 ≤ (if 240 + ch.toNat / 262144 = 244 then 143 else 191) ∧
        isCont (128 + ch.toNat / 64 % 64) = true ∧ isCont (128 + ch.toNat % 64) = true := by
      simp only [isCont, Bool.and_eq_true, decide_eq_true_eq]
      split_ifs <;> omega
    have hn : (240 + ch.toNat / 262144 - 240) * 262144 + (128 + ch.toNat / 4096 % 64 - 128) * 4096
        + (128 + ch.toNat / 64 % 64 - 128) * 64 + (128 + ch.toNat % 64 - 128) = ch.toNat := by
      omega
    simp only [List.cons_append, List.nil_append, decodeRune, if_neg ha, if_neg hb, if_neg hc,
      if_pos he, if_pos hd, hn, Char.ofNat_toNat, List.length_cons, List.length_nil]

theorem utf8Encode_shape (ch : Char) :
    ∃ b bs, utf8Encode ch = b :: bs ∧ isCont b = false ∧ ∀ x ∈ bs, isCont x = true := by
  have hstart : ∀ a : Nat, a < 128 ∨ 192 ≤ a → isCont a = false := by
    intro a ha
    simp only [isCont, Bool.and_eq_false_iff, decide_eq_false_iff_not]
    omega
  rcases utf8Encode_cases ch with ⟨a, h, ha⟩ | ⟨a, b, h, ha, _, hb⟩ | ⟨a, b, c, h, ha, _, hb, hc⟩ |
    ⟨a, b, c, d, h, ha, _, hb, hc, hd⟩
  · exact ⟨a, [], h, hstart a (by omega), by simp⟩
  · exact ⟨a, [b], h, hstart a (by omega), by simp [hb]⟩
  · exact ⟨a, [b, c], h, hstart a (by omega), by simp [hb, hc]⟩
  · exact ⟨a, [b, c, d], h, hstart a (by omega), by simp [hb, hc, hd]⟩

theorem utf8L_cons (ch : Char) (l : List Char) : utf8L (ch :: l) = utf8Encode ch ++ utf8L l := by
  simp [utf8L]

theorem utf8L_append (l m : List Char) : utf8L (l ++ m) = utf8L l ++ utf8L m := by
  simp [utf8L]

theorem runes_scan_skip (xs ys : Bytes) :
    Bytes.runes.scan (xs ++ ys) xs.length = Bytes.runes.scan ys 0 := by
  induction xs with
  | nil => rfl
  | cons x rest ih => simpa [Bytes.runes.scan] using ih

theorem runes_utf8L (l : List Char) : Bytes.runes (utf8L l) = l := by
  unfold Bytes.runes
  induction l with
  | nil => rfl
  | cons ch rest ih =>
    obtain ⟨b, bs, henc, _, _⟩ := utf8Encode_shape ch
    have hdec := decodeRune_utf8Encode ch (utf8L rest)
    rw [utf8L_cons]
    rw [henc] at hdec ⊢
    rw [List.cons_append] at hdec ⊢
    rw [Bytes.runes.scan, hdec]
    simp only [List.length_cons, Nat.add_sub_cancel]
    rw [runes_scan_skip, ih]

theorem utf8L_injective (l m : List Char) (h : utf8L l = utf8L m) : l = m := by
  rw [← runes_utf8L l, ← runes_utf8L m, h]

theorem utf8_eq_iff (s t : String) : utf8 s = utf8 t ↔ s = t := by
  constructor
  · intro h
    have := utf8L_injective s.data t.data h
    exact String.ext this
  · intro h; rw [h]

theorem ToLower_utf8 (lowerCase : Char → Char) (s : String) :
    Bytes.ToLower lowerCase (utf8 s) = utf8 (ToLower lowerCase s) := by
  unfold Bytes.ToLower utf8 ToLower
  rw [show s.data.flatMap utf8Encode = utf8L s.data from rfl, runes_utf8L]

/-! ### Removing a glyph -/

theorem replace_scan_skip (old xs ys : Bytes) :
    Bytes.ReplaceAll.scan old (xs ++ ys) xs.length = Bytes.ReplaceAll.scan old ys 0 := by
  induction xs with
  | nil => rfl
  | cons x rest ih => simpa [Bytes.ReplaceAll.scan] using ih

/-- No occurrence of a pattern that begins with a start byte begins at a
continuation byte. -/
theorem replace_scan_conts (g : Nat) (gs : Bytes) (hg : isCont g = false) (bs ys : Bytes)
    (hbs : ∀ x ∈ bs, isCont x = true) :
    Bytes.ReplaceAll.scan (g :: gs) (bs ++ ys) 0 = bs ++ Bytes.ReplaceAll.scan (g :: gs) ys 0 := by
  induction bs with
  | nil => rfl
  | cons x rest ih =>
    rw [List.forall_mem_cons] at hbs
    have hne : g ≠ x := by
      intro h
      rw [h, hbs.1] at hg
      cases hg
    have hstep : Bytes.ReplaceAll.scan (g :: gs) (x :: rest ++ ys) 0
        = x :: Bytes.ReplaceAll.scan (g :: gs) (rest ++ ys) 0 := by
      show Bytes.ReplaceAll.scan (g :: gs) (x :: (rest ++ ys)) 0 = _
      have hfalse : (g :: gs).isPrefixOf (x :: (rest ++ ys)) = false := by
        simp [List.isPrefixOf, hne]
      rw [Bytes.ReplaceAll.scan, hfalse]
      rfl
    rw [hstep, ih hbs.2]
    rfl

theorem isPrefixOf_utf8Encode (g ch : Char) (rest : Bytes) :
    (utf8Encode g).isPrefixOf (utf8Encode ch ++ rest) = true ↔ g = ch := by
  constructor
  · intro h
    obtain ⟨t, ht⟩ := List.isPrefixOf_iff_prefix.1 h
    have h1 := decodeRune_utf8Encode g t
    have h2 := decodeRune_utf8Encode ch rest
    rw [ht, h2] at h1
    exact (congrArg Prod.fst h1).symm
  · intro h
    rw [h]
    exact List.isPrefixOf_iff_prefix.2 (List.prefix_append _ _)

theorem replace_scan_utf8L (g : Char) (l : List Char) :
    Bytes.ReplaceAll.scan (utf8Encode g) (utf8L l) 0 = utf8L (l.filter (fun ch => ch != g)) := by
  induction l with
  | nil => rfl
  | cons ch rest ih =>
    obtain ⟨b, bs, henc, hb, hbs⟩ := utf8Encode_shape ch
    obtain ⟨g0, gs, hgenc, hg0, _⟩ := utf8Encode_shape g
    have hstarts := isPrefixOf_utf8Encode g ch (utf8L rest)
    rw [utf8L_cons]
    by_cases hgc : g = ch
    · subst hgc
      have hfilter : (g :: rest).filter (fun ch => ch != g) = rest.filter (fun ch => ch != g) := by
        simp
      rw [hfilter, ← ih]
      have hp := hstarts.2 rfl
      rw [henc] at hp ⊢
      rw [List.cons_append] at hp ⊢
      rw [Bytes.ReplaceAll.scan, if_pos hp]
      simp only [List.length_cons, Nat.add_sub_cancel]
      exact replace_scan_skip _ bs (utf8L rest)
    · have hfilter : (ch :: rest).filter (fun c => c != g) = ch :: rest.filter (fun c => c != g) := by
        have : ch ≠ g := fun e => hgc e.symm
        simp [this]
      have hp : ¬ (utf8Encode g).isPrefixOf (utf8Encode ch ++ utf8L rest) = true :=
        fun h => hgc (hstarts.1 h)
      rw [hfilter, utf8L_cons, ← ih]
      rw [henc] at hp ⊢
      rw [List.cons_append] at hp ⊢
      rw [Bytes.ReplaceAll.scan, if_neg hp, hgenc, replace_scan_conts g0 gs hg0 bs _ hbs]
      rfl

theorem ReplaceAll_utf8L (g : Char) (l : List Char) :
    Bytes.ReplaceAll (utf8L l) (utf8Encode g) = utf8L (l.filter (fun ch => ch != g)) := by
  obtain ⟨g0, gs, hgenc, _, _⟩ := utf8Encode_shape g
  unfold Bytes.ReplaceAll
  rw [if_neg (by rw [hgenc]; simp)]
  exact replace_scan_utf8L g l

theorem foldl_ReplaceAll_utf8L (gs : List Char) (l : List Char) :
    (gs.map (fun g => utf8 (⟨[g]⟩ : String))).foldl
        (fun result emoji => Bytes.ReplaceAll result emoji) (utf8L l)
      = utf8L (l.filter (fun ch => !gs.contains ch)) := by
  induction gs generalizing l with
  | nil => simp
  | cons g rest ih =>
    have hg : utf8 (⟨[g]⟩ : String) = utf8Encode g := by simp [utf8]
    rw [List.map_cons, List.foldl_cons, hg, ReplaceAll_utf8L, ih]
    simp only [List.filter_filter]
    congr 1
    apply List.filter_congr
    intro ch _
    by_cases h : ch = g
    · subst h; simp
    · simp [h]

/-! ### Trimming -/

theorem trimLeft_scan_skip (xs ys : Bytes) :
    Bytes.TrimLeft.scan (xs ++ ys) xs.length = Bytes.TrimLeft.scan ys 0 := by
  induction xs with
  | nil => rfl
  | cons x rest ih => simpa [Bytes.TrimLeft.scan] using ih

theorem trimLeft_utf8L (l : List Char) :
    Bytes.TrimLeft.scan (utf8L l) 0 = utf8L (l.dropWhile isSpace) := by
  induction l with
  | nil => rfl
  | cons ch rest ih =>
    obtain ⟨b, bs, henc, _, _⟩ := utf8Encode_shape ch
    have hdec := decodeRune_utf8Encode ch (utf8L rest)
    rw [utf8L_cons]
    rw [henc] at hdec
    rw [List.cons_append] at hdec
    by_cases hsp : isSpace ch = true
    · rw [List.dropWhile_cons_of_pos hsp, ← ih, henc, List.cons_append, Bytes.TrimLeft.scan,
        hdec, if_pos hsp]
      simp only [List.length_cons, Nat.add_sub_cancel]
      exact trimLeft_scan_skip bs (utf8L rest)
    · rw [List.dropWhile_cons_of_neg hsp, utf8L_cons, henc, List.cons_append,
        Bytes.TrimLeft.scan, hdec, if_neg hsp]

theorem isCont_ge (b : Nat) (h : isCont b = true) : ¬ b < 128 := by
  simp only [isCont, Bool.and_eq_true, decide_eq_true_eq] at h
  omega

theorem isCont_start (a : Nat) (h : 192 ≤ a) : isCont a = false := by
  simp only [isCont, Bool.and_eq_false_iff, decide_eq_false_iff_not]
  omega

theorem decodeLastRune_utf8Encode (pre : Bytes) (ch : Char) :
    decodeLastRune (pre ++ utf8Encode ch) = (ch, (utf8Encode ch).length) := by
  have hdec := decodeRune_utf8Encode ch []
  rcases utf8Encode_cases ch with ⟨a, h, ha⟩ | ⟨a, b, h, ha, _, hb⟩ | ⟨a, b, c, h, ha, _, hb, hc⟩ |
    ⟨a, b, c, d, h, ha, _, hb, hc, hd⟩
  · rw [h] at hdec ⊢
    simp only [List.nil_append, List.append_nil, decodeRune, if_pos ha, List.length_singleton]
      at hdec
    simp only [decodeLastRune, List.reverse_append, List.reverse_cons, List.reverse_nil,
      List.nil_append, List.singleton_append, if_pos ha, List.length_singleton]
    exact hdec
  · rw [h] at hdec ⊢
    rw [List.append_nil] at hdec
    have ha' := isCont_start a (by omega)
    have hb' := isCont_ge b hb
    simp only [decodeLastRune, List.reverse_append, List.reverse_cons, List.reverse_nil,
      List.nil_append, List.singleton_append, List.cons_append, if_neg hb', List.take_succ_cons,
      List.takeWhile_cons, ha', List.length_nil, List.length_cons, Nat.zero_lt_succ, if_true,
      List.take_zero, hdec, Bool.false_eq_true, if_false]
  · rw [h] at hdec ⊢
    rw [List.append_nil] at hdec
    have ha' := isCont_start a (by omega)
    have hc' := isCont_ge c hc
    simp only [decodeLastRune, List.reverse_append, List.reverse_cons, List.reverse_nil,
      List.nil_append, List.singleton_append, List.cons_append, if_neg hc', List.take_succ_cons,
      List.takeWhile_cons, ha', hb, List.length_nil, List.length_cons, if_true,
      List.take_zero, hdec, Bool.false_eq_true, if_false]
    simp [hdec]
  · rw [h] at hdec ⊢
    rw [List.append_nil] at hdec
    have ha' := isCont_start a (by omega)
    have hd' := isCont_ge d hd
    simp only [decodeLastRune, List.reverse_append, List.reverse_cons, List.reverse_nil,
      List.nil_append, List.singleton_append, List.cons_append, if_neg hd', List.take_succ_cons,
      List.takeWhile_cons, ha', hb, hc, List.length_nil, List.length_cons, if_true,
      List.take_zero, hdec, Bool.false_eq_true, if_false]
    simp [hdec]

theorem trimRight_scan_skip (xs ys : Bytes) :
    Bytes.TrimRight.scan (xs ++ ys) xs.length = Bytes.TrimRight.scan ys 0 := by
  induction xs with
  | nil => rfl
  | cons x rest ih => simpa [Bytes.TrimRight.scan] using ih

theorem trimRight_utf8L (m : List Char) :
    Bytes.TrimRight.scan (utf8L m.reverse).reverse 0
      = (utf8L (m.dropWhile isSpace).reverse).reverse := by
  induction m with
  | nil => rfl
  | cons ch rest ih =>
    have hsplit : (utf8L (ch :: rest).reverse).reverse
        = (utf8Encode ch).reverse ++ (utf8L rest.reverse).reverse := by
      rw [List.reverse_cons, utf8L_append, List.reverse_append]
      simp [utf8L]
    obtain ⟨b, bs, henc, _, _⟩ := utf8Encode_shape ch
    cases hrev : (utf8Encode ch).reverse with
    | nil =>
      rw [henc] at hrev
      simp at hrev
    | cons x xs =>
      have hback : (x :: (xs ++ (utf8L rest.reverse).reverse)).reverse
          = utf8L rest.reverse ++ utf8Encode ch := by
        rw [← List.cons_append, List.reverse_append, List.reverse_reverse, ← hrev,
          List.reverse_reverse]
      have hlen : (utf8Encode ch).length = xs.length + 1 := by
        rw [← List.length_reverse, hrev, List.length_cons]
      have hlast := decodeLastRune_utf8Encode (utf8L rest.reverse) ch
      rw [hsplit, hrev, List.cons_append, Bytes.TrimRight.scan, hback, hlast]
      by_cases hsp : isSpace ch = true
      · rw [if_pos hsp, List.dropWhile_cons_of_pos hsp, ← ih, hlen]
        simp only [Nat.add_sub_cancel]
        exact trimRight_scan_skip xs _
      · rw [if_neg hsp, List.dropWhile_cons_of_neg hsp, hsplit, hrev, List.cons_append]

theorem TrimSpace_utf8 (s : String) : Bytes.TrimSpace (utf8 s) = utf8 (TrimSpace s) := by
  unfold Bytes.TrimSpace TrimSpace utf8
  rw [show s.data.flatMap utf8Encode = utf8L s.data from rfl, trimLeft_utf8L]
  have h := trimRight_utf8L (s.data.dropWhile isSpace).reverse
  rw [List.reverse_reverse] at h
  rw [h, List.reverse_reverse]
  rfl

/-! ### `ParseStatus` on the bytes of a text -/

theorem cleanStatusEmoji_utf8 (s : String) :
    Bytes.cleanStatusEmoji (utf8 s) = utf8 (cleanStatusEmoji s) := by
  rw [cleanStatusEmoji_eq, ← TrimSpace_utf8]
  unfold Bytes.cleanStatusEmoji
  rw [emojiPatterns_eq, List.map_map]
  have h := foldl_ReplaceAll_utf8L emojiGlyphs s.data
  simp only [Function.comp_def]
  rw [show utf8 s = utf8L s.data from rfl, h]
  rfl

theorem utf8_append (s t : String) : utf8 (s ++ t) = utf8 s ++ utf8 t := by
  simp [utf8]

/-- On the bytes of a text, `ParseStatus` on bytes returns what `ParseStatus` returns
on the text. -/
theorem ParseStatus_utf8 (lowerCase : Char → Char) (s : String) :
    Bytes.ParseStatus lowerCase (utf8 s) =
      match ParseStatus lowerCase s with
      | .ok status => .ok status
      | .error message => .error (utf8 message) := by
  unfold Bytes.ParseStatus ParseStatus
  simp only [cleanStatusEmoji_utf8, TrimSpace_utf8, ToLower_utf8, utf8_eq_iff]
  split_ifs <;> simp [errInvalidStatus, utf8_append]

/-! ### The specification's normal form -/

theorem isSpace_eq_isWhiteSpace (ch : Char) : isSpace ch = isWhiteSpace ch := by
  unfold isSpace isWhiteSpace
  generalize ch.toNat = n
  rw [Bool.eq_iff_iff]
  simp only [List.contains_iff_exists_mem_beq, beq_iff_eq, exists_eq_right']
  split_ifs with h <;> simp <;> omega

theorem toLowerRune_eq_lowerChar (lowerCase : Char → Char) (ch : Char) :
    toLowerRune lowerCase ch = lowerChar lowerCase ch := by
  unfold toLowerRune lowerChar Char.toLower
  by_cases h : ch.toNat < 128
  · have h' : ch.toNat ≤ 127 := by omega
    simp only [h, h', if_true, ge_iff_le]
  · have h' : ¬ ch.toNat ≤ 127 := by omega
    simp only [h, h', if_false]

theorem normalizeStatus_eq (lowerCase : Char → Char) (s : String) :
    normalizeStatus lowerCase s = statusNormalForm lowerCase s := by
  unfold normalizeStatus statusNormalForm ToLower TrimSpace removeEmoji trimWhiteSpace
  have h1 : isSpace = isWhiteSpace := funext isSpace_eq_isWhiteSpace
  have h2 : toLowerRune lowerCase = lowerChar lowerCase :=
    funext (toLowerRune_eq_lowerChar lowerCase)
  rw [h1, h2]

/-! ### The nine synonyms as bytes -/

theorem utf8_synonym1 : utf8 "in progress" = [105, 110, 32, 112, 114, 111, 103, 114, 101, 115, 115] := by decide

theorem utf8_synonym2 : utf8 "complete" = [99, 111, 109, 112, 108, 101, 116, 101] := by decide

theorem utf8_synonym3 : utf8 "completed" = [99, 111, 109, 112, 108, 101, 116, 101, 100] := by decide

theorem utf8_synonym4 : utf8 "done" = [100, 111, 110, 101] := by decide

theorem utf8_synonym5 : utf8 "not started" = [110, 111, 116, 32, 115, 116, 97, 114, 116, 101, 100] := by decide

theorem utf8_synonym6 : utf8 "pending" = [112, 101, 110, 100, 105, 110, 103] := by decide

theorem utf8_synonym7 : utf8 "todo" = [116, 111, 100, 111] := by decide

theorem utf8_synonym8 : utf8 "reject" = [114, 101, 106, 101, 99, 116] := by decide

theorem utf8_synonym9 : utf8 "rejected" = [114, 101, 106, 101, 99, 116, 101, 100] := by decide

/-- The nine texts that `ParseStatus` accepts, as bytes. -/
theorem Bytes.ParseStatus_error (lowerCase : Char → Char) (status : Bytes)
    (hnone : Bytes.ToLower lowerCase (Bytes.TrimSpace (Bytes.cleanStatusEmoji status))
      ∉ [utf8 "in progress", utf8 "complete", utf8 "completed", utf8 "done", utf8 "not started", utf8 "pending", utf8 "todo", utf8 "reject", utf8 "rejected"]) :
    Bytes.ParseStatus lowerCase status = .error (utf8 "invalid status: " ++ status) := by
  simp only [List.mem_cons, List.mem_singleton, List.not_mem_nil, or_false, not_or] at hnone
  obtain ⟨h1, h2, h3, h4, h5, h6, h7, h8, h9⟩ := hnone
  unfold Bytes.ParseStatus
  simp only [h1, h2, h3, h4, h5, h6, h7, h8, h9, or_self, if_false]

/-- The bytes of "done" followed by at least one more byte are none of the nine
texts. -/
theorem done_and_more_not_synonym (x : Nat) (xs : Bytes) :
    utf8 "done" ++ (x :: xs) ∉ [utf8 "in progress", utf8 "complete", utf8 "completed", utf8 "done", utf8 "not started", utf8 "pending", utf8 "todo", utf8 "reject", utf8 "rejected"] := by
  simp [utf8_synonym1, utf8_synonym2, utf8_synonym3, utf8_synonym4, utf8_synonym5,
    utf8_synonym6, utf8_synonym7, utf8_synonym8, utf8_synonym9]

/-! ## C11 -/

/-- C11, counterexample: two inputs that are not valid UTF-8.  In the first, the
bytes of ✅ stand between the first byte and the last two bytes of ✓: the program
removes ✅, then the ✓ that this leaves, and returns Completed, while the input with
its glyph removed is "done✓", whose normal form is none of the nine texts.  In the
second, ✓ stands inside the bytes of ✅: the program removes ✓, keeps the ✅ that this
leaves (✅ is tried before ✓) and returns the invalid-status error, while removing
glyphs until none is left gives "done". -/
theorem ParseStatus_invalid_utf8_counterexample :
    (∀ lowerCase : Char → Char,
      Bytes.ParseStatus lowerCase (utf8 "done" ++ [226] ++ utf8 "✅" ++ [156, 147])
        = .ok StatusCompleted) ∧
    Bytes.removeGlyphs (utf8 "done" ++ [226] ++ utf8 "✅" ++ [156, 147]) = utf8 "done✓" ∧
    (∀ lowerCase : Char → Char,
      Bytes.ToLower lowerCase (Bytes.TrimSpace
          (Bytes.removeGlyphs (utf8 "done" ++ [226] ++ utf8 "✅" ++ [156, 147])))
        ∉ [utf8 "in progress", utf8 "complete", utf8 "completed", utf8 "done", utf8 "not started", utf8 "pending", utf8 "todo", utf8 "reject", utf8 "rejected"]) ∧
    (∀ lowerCase : Char → Char,
      Bytes.ParseStatus lowerCase (utf8 "done" ++ [226] ++ utf8 "✓" ++ [156, 133])
        = .error (utf8 "invalid status: " ++ (utf8 "done" ++ [226] ++ utf8 "✓" ++ [156, 133]))) ∧
    Bytes.cleanStatusEmoji (utf8 "done" ++ [226] ++ utf8 "✓" ++ [156, 133]) = utf8 "done✅" ∧
    Bytes.removeGlyphs (Bytes.removeGlyphs (utf8 "done" ++ [226] ++ utf8 "✓" ++ [156, 133]))
      = utf8 "done" ∧
    Bytes.removeGlyphs (utf8 "done") = utf8 "done" := by
  refine ⟨fun _ => rfl, by decide, ?_, ?_, by decide, by decide, by decide⟩
  · intro lowerCase
    obtain ⟨b, bs, henc, _, _⟩ := utf8Encode_shape (lowerCase (Char.ofNat 10003))
    have hval : Bytes.ToLower lowerCase (Bytes.TrimSpace
        (Bytes.removeGlyphs (utf8 "done" ++ [226] ++ utf8 "✅" ++ [156, 147])))
        = utf8 "done" ++ (utf8Encode (lowerCase (Char.ofNat 10003)) ++ []) := rfl
    rw [hval, henc]
    exact done_and_more_not_synonym b (bs ++ [])
  · intro lowerCase
    apply Bytes.ParseStatus_error
    obtain ⟨b, bs, henc, _, _⟩ := utf8Encode_shape (lowerCase (Char.ofNat 9989))
    have hval : Bytes.ToLower lowerCase (Bytes.TrimSpace (Bytes.cleanStatusEmoji
        (utf8 "done" ++ [226] ++ utf8 "✓" ++ [156, 133])))
        = utf8 "done" ++ (utf8Encode (lowerCase (Char.ofNat 9989)) ++ []) := rfl
    rw [hval, henc]
    exact done_and_more_not_synonym b (bs ++ [])

/-- C11, amended: for every input that is valid UTF-8, the bytes of a text `s`, with
`n` the text with every glyph of the emoji set removed, then surrounding white
space trimmed, then lower-cased, `ParseStatus` returns InProgress exactly when `n` is
"in progress", Completed exactly when `n` is "complete", "completed" or "done",
NotStarted exactly when `n` is "not started", "pending" or "todo", Rejected exactly
when `n` is "reject" or "rejected", and the invalid-status error carrying the input
exactly when `n` is none of these nine texts. -/
theorem ParseStatus_exact_on_utf8 (lowerCase : Char → Char) (s : String) :
    (Bytes.ParseStatus lowerCase (utf8 s) = .ok StatusInProgress ↔
      statusNormalForm lowerCase s = "in progress") ∧
    (Bytes.ParseStatus lowerCase (utf8 s) = .ok StatusCompleted ↔
      statusNormalForm lowerCase s = "complete" ∨ statusNormalForm lowerCase s = "completed" ∨
        statusNormalForm lowerCase s = "done") ∧
    (Bytes.ParseStatus lowerCase (utf8 s) = .ok StatusNotStarted ↔
      statusNormalForm lowerCase s = "not started" ∨ statusNormalForm lowerCase s = "pending" ∨
        statusNormalForm lowerCase s = "todo") ∧
    (Bytes.ParseStatus lowerCase (utf8 s) = .ok StatusRejected ↔
      statusNormalForm lowerCase s = "reject" ∨ statusNormalForm lowerCase s = "rejected") ∧
    (Bytes.ParseStatus lowerCase (utf8 s) = .error (utf8 "invalid status: " ++ utf8 s) ↔
      statusNormalForm lowerCase s ∉ ["in progress", "complete", "completed", "done",
        "not started", "pending", "todo", "reject", "rejected"]) := by
  rw [ParseStatus_utf8, ParseStatus_eq, normalizeStatus_eq]
  generalize statusNormalForm lowerCase s = n
  have h1 : StatusInProgress ≠ StatusCompleted := by decide
  have h2 : StatusInProgress ≠ StatusNotStarted := by decide
  have h3 : StatusInProgress ≠ StatusRejected := by decide
  have h4 : StatusCompleted ≠ StatusNotStarted := by decide
  have h5 : StatusCompleted ≠ StatusRejected := by decide
  have h6 : StatusNotStarted ≠ StatusRejected := by decide
  split_ifs with c1 c2 c3 c4
  · subst c1
    simp [h1, h2, h3]
  · rcases c2 with rfl | rfl | rfl <;> simp [h1.symm, h4, h5]
  · rcases c3 with rfl | rfl | rfl <;> simp [h2.symm, h4.symm, h6]
  · rcases c4 with rfl | rfl <;> simp [h3.symm, h5.symm, h6.symm]
  · simp only [not_or] at c2 c3 c4
    simp [c1, c2, c3, c4, errInvalidStatus, utf8_append]

end TodoCli
